import Mathlib

/-!
# Verification of the danmu statistics engine and collection coordinator

A shallow embedding, in Lean 4, of the statistics subsystem of the
`rust-srec` repository (`crates/platforms/src/danmaku/statistics.rs`) and of
the registry/cleanup logic of the session collection coordinator
(`rust-srec/src/danmu/service.rs`), together with theorems settling the
behavioural claims about them.

Modelling conventions:
* Rust `u64` values are `Nat`s kept below `2 ^ 64`; `saturating_add` becomes
  `satAdd`, and unchecked `u64` addition (`+=`) is modelled with release-build
  wrapping semantics (`wrapAdd`, reduction mod `2 ^ 64`).
* Rust `HashMap`s are association lists.  Rust leaves the iteration order of a
  `HashMap` unspecified; the embedding fixes it to insertion order (entries are
  appended at the tail).  `min_by_key` returns the first minimal element in
  iteration order, exactly as Rust's `Iterator::min_by_key` does.
* `chrono::DateTime<Utc>` timestamps are modelled by their `timestamp()`
  value, an `Int` number of seconds.  (Sub-second precision is dropped: the
  statistics code only feeds timestamps through `timestamp()` and stores them
  in `start_time`, which no claim inspects at sub-second resolution.)
-/

namespace RustSrec

/-! ## `u64` arithmetic -/

/-- `2 ^ 64`, the modulus of Rust `u64` arithmetic. -/
def U64 : Nat := 18446744073709551616

/-- `u64::MAX`. -/
def u64Max : Nat := U64 - 1

/-- Rust `u64::saturating_add`. -/
def satAdd (a b : Nat) : Nat := min (a + b) u64Max

/-- Rust `u64` unchecked `+` with release-build (wrapping) semantics. -/
def wrapAdd (a b : Nat) : Nat := (a + b) % U64

/-- Rust `usize::saturating_mul` (64-bit target). -/
def satMul (a b : Nat) : Nat := min (a * b) u64Max

/-! ## `DefaultHasher`: SipHash-1-3 with zero keys

`CountMinSketch::hash_with_seed` hashes, with a fresh
`std::collections::hash_map::DefaultHasher`, the `u64` row seed followed by
the string value.  `DefaultHasher` is SipHash-1-3 keyed with `(0, 0)`; the
byte stream it digests is the seed's 8 little-endian bytes (`u64::hash` /
`write_u64`, native-endian = little-endian on the supported targets),
followed by the string's UTF-8 bytes and a trailing `0xFF` byte
(`str::hash`).  We implement that hash literally on `Nat`s below `2 ^ 64`. -/

/-- Rotate a 64-bit value left by `n` bits (`0 < n < 64`). -/
def rotl (x n : Nat) : Nat := ((x <<< n) % U64) ||| (x >>> (64 - n))

/-- The four 64-bit lanes of a SipHash state. -/
structure SipState where
  v0 : Nat
  v1 : Nat
  v2 : Nat
  v3 : Nat
deriving DecidableEq

/-- One SipHash round (`SIPROUND`). -/
def sipRound (s : SipState) : SipState :=
  let v0 := (s.v0 + s.v1) % U64
  let v1 := rotl s.v1 13
  let v1 := v1 ^^^ v0
  let v0 := rotl v0 32
  let v2 := (s.v2 + s.v3) % U64
  let v3 := rotl s.v3 16
  let v3 := v3 ^^^ v2
  let v0 := (v0 + v3) % U64
  let v3 := rotl v3 21
  let v3 := v3 ^^^ v0
  let v2 := (v2 + v1) % U64
  let v1 := rotl v1 17
  let v1 := v1 ^^^ v2
  let v2 := rotl v2 32
  ⟨v0, v1, v2, v3⟩

/-- Absorb one 64-bit message word (SipHash-1-3: one round per word). -/
def sipCompress (s : SipState) (m : Nat) : SipState :=
  let s := { s with v3 := s.v3 ^^^ m }
  let s := sipRound s
  { s with v0 := s.v0 ^^^ m }

/-- Little-endian value of a byte list. -/
def leWord : List Nat → Nat
  | [] => 0
  | b :: rest => b + 256 * leWord rest

/-- Split a byte stream into full 8-byte blocks plus the remainder. -/
def sipBlocks : List Nat → List (List Nat) × List Nat
  | b0 :: b1 :: b2 :: b3 :: b4 :: b5 :: b6 :: b7 :: rest =>
    let p := sipBlocks rest
    ([b0, b1, b2, b3, b4, b5, b6, b7] :: p.1, p.2)
  | l => ([], l)

/-- SipHash-1-3 with keys `(0, 0)` over a byte stream, as computed by
`DefaultHasher::finish`. -/
def sipHash13 (bytes : List Nat) : Nat :=
  let s0 : SipState :=
    ⟨0x736f6d6570736575, 0x646f72616e646f6d, 0x6c7967656e657261, 0x7465646279746573⟩
  let p := sipBlocks bytes
  let s := p.1.foldl (fun s b => sipCompress s (leWord b)) s0
  let last := ((bytes.length % 256) <<< 56) ||| leWord p.2
  let s := sipCompress s last
  let s := { s with v2 := s.v2 ^^^ 0xff }
  let s := sipRound (sipRound (sipRound s))
  s.v0 ^^^ s.v1 ^^^ s.v2 ^^^ s.v3

/-- The 8 little-endian bytes of a `u64` (`write_u64`). -/
def u64Bytes (x : Nat) : List Nat :=
  [x % 256, (x >>> 8) % 256, (x >>> 16) % 256, (x >>> 24) % 256,
   (x >>> 32) % 256, (x >>> 40) % 256, (x >>> 48) % 256, (x >>> 56) % 256]

/-- UTF-8 encoding of a Unicode scalar value. -/
def utf8Bytes (c : Nat) : List Nat :=
  if c < 0x80 then [c]
  else if c < 0x800 then
    [0xC0 ||| (c >>> 6), 0x80 ||| (c &&& 0x3F)]
  else if c < 0x10000 then
    [0xE0 ||| (c >>> 12), 0x80 ||| ((c >>> 6) &&& 0x3F), 0x80 ||| (c &&& 0x3F)]
  else
    [0xF0 ||| (c >>> 18), 0x80 ||| ((c >>> 12) &&& 0x3F),
     0x80 ||| ((c >>> 6) &&& 0x3F), 0x80 ||| (c &&& 0x3F)]

/-- The UTF-8 bytes of a string (`str::as_bytes`). -/
def strBytes (s : String) : List Nat :=
  (s.data.map (fun c => utf8Bytes c.toNat)).flatten

/-- `CountMinSketch::hash_with_seed(value, seed)`: a fresh `DefaultHasher`
digesting `seed` (8 LE bytes) then `value` (UTF-8 bytes plus the `0xFF`
`str` terminator). -/
def hashWithSeed (value : String) (seed : Nat) : Nat :=
  sipHash13 (u64Bytes seed ++ (strBytes value ++ [0xff]))

/-! ## `CountMinSketch` -/

/-- `CountMinSketch`: a `width × depth` table of saturating `u64` counters. -/
structure CountMinSketch where
  width : Nat
  depth : Nat
  rows : List (List Nat)
deriving DecidableEq

/-- `CountMinSketch::new`: width is floored at 64, depth at 2. -/
def CountMinSketch.new (width depth : Nat) : CountMinSketch :=
  let w := max width 64
  let d := max depth 2
  ⟨w, d, List.replicate d (List.replicate w 0)⟩

/-- The body of the `for i in 0..self.depth` loop of `CountMinSketch::increment`,
iterating over the rows (`rows` has exactly `depth` rows, so indexing `rows[i]`
for `i in 0..depth` visits each row once, in order); `i` is the row seed. -/
def cmsIncRows (value : String) (inc : Nat) (width : Nat) : Nat → List (List Nat) → List (List Nat)
  | _, [] => []
  | i, row :: rest =>
    let index := hashWithSeed value i % width
    row.set index (satAdd (row.getD index 0) inc) :: cmsIncRows value inc width (i + 1) rest

/-- `CountMinSketch::increment(value, inc)`. -/
def CountMinSketch.increment (s : CountMinSketch) (value : String) (inc : Nat) : CountMinSketch :=
  { s with rows := cmsIncRows value inc s.width 0 s.rows }

/-- The `for i in 0..self.depth` loop of `CountMinSketch::estimate`, folding
`min` over the hashed cell of each row; the accumulator starts at `u64::MAX`. -/
def cmsMinRows (value : String) (width : Nat) : Nat → List (List Nat) → Nat → Nat
  | _, [], acc => acc
  | i, row :: rest, acc =>
    let index := hashWithSeed value i % width
    cmsMinRows value width (i + 1) rest (min acc (row.getD index 0))

/-- `CountMinSketch::estimate(value)`. -/
def CountMinSketch.estimate (s : CountMinSketch) (value : String) : Nat :=
  cmsMinRows value s.width 0 s.rows u64Max

/-! ## Heavy hitters (Space-Saving)

`TalkerHeavyHitters` and `WordHeavyHitters` keep their counters in a
`HashMap`; the embedding uses an association list whose order stands for the
map's iteration order (new entries appended at the tail).  `min_by_key`
returns the first minimal entry in iteration order, as in Rust. -/

/-- `Ordering` produced by `u64::cmp`. -/
def cmpNat (a b : Nat) : Ordering :=
  if a < b then .lt else if b < a then .gt else .eq

/-- `Ordering` produced by `String::cmp`.  Rust compares strings by their
UTF-8 bytes; on valid UTF-8 that coincides with lexicographic comparison of
the scalar values, which is Lean's `String` order. -/
def cmpStr (a b : String) : Ordering :=
  if a < b then .lt else if b < a then .gt else .eq

/-- `TalkerCounter`: per-user count with Space-Saving error bound. -/
structure TalkerCounter where
  username : String
  count : Nat
  error : Nat
deriving DecidableEq

/-- `TalkerHeavyHitters`: bounded table of talker counters. -/
structure TalkerHeavyHitters where
  capacity : Nat
  counters : List (String × TalkerCounter)
deriving DecidableEq

/-- `TalkerHeavyHitters::new`: capacity is floored at 1. -/
def TalkerHeavyHitters.new (capacity : Nat) : TalkerHeavyHitters :=
  ⟨max capacity 1, []⟩

/-- One step of `Iterator::min_by_key`: keep the accumulator unless the next
element's count is strictly smaller (so the *first* minimum wins). -/
def minStep {β : Type} (count : β → Nat) (acc : Option (String × Nat)) (e : String × β) :
    Option (String × Nat) :=
  match acc with
  | none => some (e.1, count e.2)
  | some (k, c) => if count e.2 < c then some (e.1, count e.2) else some (k, c)

/-- `Iterator::min_by_key(|(_, counter)| counter.count)` followed by
`.map(|(key, counter)| (key.clone(), counter.count))`: the first entry with
minimal count, in iteration order. -/
def minByCount {β : Type} (count : β → Nat) (l : List (String × β)) : Option (String × Nat) :=
  l.foldl (minStep count) none

/-- `TalkerHeavyHitters::increment(user_id, username)`.  (The source updates
the stored username only when it differs; unconditionally storing `username`
yields the same table.) -/
def TalkerHeavyHitters.increment (s : TalkerHeavyHitters) (userId username : String) :
    TalkerHeavyHitters :=
  match s.counters.lookup userId with
  | some _ =>
    { s with
      counters := s.counters.map (fun e =>
        if e.1 = userId then (e.1, { e.2 with count := satAdd e.2.count 1, username := username })
        else e) }
  | none =>
    if s.counters.length < s.capacity then
      { s with counters := s.counters ++ [(userId, ⟨username, 1, 0⟩)] }
    else
      match minByCount (fun c => c.count) s.counters with
      | some (key, minCount) =>
        { s with
          counters := s.counters.eraseP (fun e => e.1 == key) ++
            [(userId, ⟨username, satAdd minCount 1, minCount⟩)] }
      | none => s

/-- A `TopTalker` entry of the output snapshot. -/
structure TopTalker where
  userId : String
  username : String
  messageCount : Nat
deriving DecidableEq

/-- The comparator of `TalkerHeavyHitters::top_n`:
`b.count.cmp(&a.count).then_with(|| aid.cmp(bid)).then_with(|| a.error.cmp(&b.error))`. -/
def talkerCmp (a b : String × TalkerCounter) : Ordering :=
  ((cmpNat b.2.count a.2.count).then (cmpStr a.1 b.1)).then (cmpNat a.2.error b.2.error)

/-- `TalkerHeavyHitters::top_n(n)`: sort all entries with `talkerCmp`
(`sort_by` is a stable sort; `mergeSort` with `le a b := talkerCmp a b ≠ gt`
computes the same permutation), truncate to `n`, project. -/
def TalkerHeavyHitters.topN (s : TalkerHeavyHitters) (n : Nat) : List TopTalker :=
  if n = 0 ∨ s.counters = [] then []
  else
    ((s.counters.mergeSort (fun a b => decide (talkerCmp a b ≠ .gt))).take n).map
      (fun e => ⟨e.1, e.2.username, e.2.count⟩)

/-- `WordCounter`: per-word count with Space-Saving error bound. -/
structure WordCounter where
  count : Nat
  error : Nat
deriving DecidableEq

/-- `WordHeavyHitters`: bounded word table with optional sketch backing. -/
structure WordHeavyHitters where
  capacity : Nat
  counters : List (String × WordCounter)
  sketch : Option CountMinSketch
deriving DecidableEq

/-- `WordHeavyHitters::new`: capacity is floored at 1. -/
def WordHeavyHitters.new (capacity : Nat) (sketch : Option CountMinSketch) : WordHeavyHitters :=
  ⟨max capacity 1, [], sketch⟩

/-- `WordHeavyHitters::increment(word)`: the sketch (when present) is
incremented unconditionally first; then hit / free-slot insert / Space-Saving
eviction on the bounded table.  On eviction the inserted count is
`max(min_count.saturating_add(1), sketch.estimate(word))` (0 without a
sketch), the error is the evicted count. -/
def WordHeavyHitters.increment (s : WordHeavyHitters) (word : String) : WordHeavyHitters :=
  let sketch :=
    match s.sketch with
    | some sk => some (sk.increment word 1)
    | none => none
  match s.counters.lookup word with
  | some _ =>
    { s with
      sketch := sketch
      counters := s.counters.map (fun e =>
        if e.1 = word then (e.1, { e.2 with count := satAdd e.2.count 1 }) else e) }
  | none =>
    if s.counters.length < s.capacity then
      { s with sketch := sketch, counters := s.counters ++ [(word, ⟨1, 0⟩)] }
    else
      match minByCount (fun c => c.count) s.counters with
      | some (key, minCount) =>
        let cmsCount := (sketch.map (fun sk => sk.estimate word)).getD 0
        let count := max (satAdd minCount 1) cmsCount
        { s with
          sketch := sketch
          counters := s.counters.eraseP (fun e => e.1 == key) ++
            [(word, ⟨count, minCount⟩)] }
      | none => { s with sketch := sketch }

/-- `WordHeavyHitters::score(key, counter)`: the effective score, i.e.
`max(counter.count, sketch.estimate(key))` when a sketch is attached and
`counter.count` otherwise. -/
def WordHeavyHitters.score (s : WordHeavyHitters) (key : String) (counter : WordCounter) : Nat :=
  match s.sketch with
  | some sk => max counter.count (sk.estimate key)
  | none => counter.count

/-- `WordHeavyHitters::compare_entries`: effective score descending
(`cmp(..).reverse()`), then key ascending, then error ascending. -/
def WordHeavyHitters.compareEntries (s : WordHeavyHitters) (a b : String × WordCounter) :
    Ordering :=
  (((cmpNat (s.score a.1 a.2) (s.score b.1 b.2)).swap).then (cmpStr a.1 b.1)).then
    (cmpNat a.2.error b.2.error)

/-- A `WordFrequency` entry of the output snapshot; `count` is the effective
score. -/
structure WordFrequency where
  word : String
  count : Nat
deriving DecidableEq

/-- `WordHeavyHitters::top_n(n)`: sort all entries with `compare_entries`
(stable `sort_by`), truncate to `n`, project through `score`. -/
def WordHeavyHitters.topN (s : WordHeavyHitters) (n : Nat) : List WordFrequency :=
  if n = 0 ∨ s.counters = [] then []
  else
    ((s.counters.mergeSort (fun a b => decide (s.compareEntries a b ≠ .gt))).take n).map
      (fun e => ⟨e.1, s.score e.1 e.2⟩)

/-! ## Tokenization (`StatisticsAggregator::process_words`) -/

/-- `char::is_whitespace`: the 25 code points with the Unicode `White_Space`
property. -/
def isWhitespaceRust (c : Char) : Bool :=
  decide ((0x09 ≤ c.toNat ∧ c.toNat ≤ 0x0D) ∨ c.toNat = 0x20 ∨ c.toNat = 0x85 ∨
    c.toNat = 0xA0 ∨ c.toNat = 0x1680 ∨ (0x2000 ≤ c.toNat ∧ c.toNat ≤ 0x200A) ∨
    c.toNat = 0x2028 ∨ c.toNat = 0x2029 ∨ c.toNat = 0x202F ∨ c.toNat = 0x205F ∨
    c.toNat = 0x3000)

/-- `char::is_ascii_punctuation`: `!..=/`, `:..=@`, `[..=` backquote, and
`{..=~`. -/
def isAsciiPunct (c : Char) : Bool :=
  decide ((0x21 ≤ c.toNat ∧ c.toNat ≤ 0x2F) ∨ (0x3A ≤ c.toNat ∧ c.toNat ≤ 0x40) ∨
    (0x5B ≤ c.toNat ∧ c.toNat ≤ 0x60) ∨ (0x7B ≤ c.toNat ∧ c.toNat ≤ 0x7E))

/-- The split predicate of `process_words`:
`c.is_whitespace() || c.is_ascii_punctuation()`. -/
def isWordSep (c : Char) : Bool := isWhitespaceRust c || isAsciiPunct c

/-- `str::split(pred)`: the (possibly empty) runs between separator
characters.  `"a,,b"` splits into `["a", "", "b"]`. -/
def splitChars (p : Char → Bool) : List Char → List (List Char)
  | [] => [[]]
  | c :: cs =>
    match splitChars p cs with
    | [] => [[]]
    | t :: ts => if p c then [] :: t :: ts else (c :: t) :: ts

/-- Char-wise model of Rust `char::to_lowercase`, restricted to the simple
ASCII mapping.  Rust applies the full Unicode lowercase mapping; it agrees
with this function on ASCII letters and on every character with no lowercase
mapping (digits, punctuation, CJK, ...), which covers the inputs this
development evaluates. -/
def charToLower (c : Char) : Char :=
  if 0x41 ≤ c.toNat ∧ c.toNat ≤ 0x5A then Char.ofNat (c.toNat + 32) else c

/-- `word.to_lowercase()` over a token. -/
def lowerToken (w : List Char) : String := ⟨w.map charToLower⟩

/-- `str::len`: the length of a string in UTF-8 **bytes** (not characters). -/
def utf8Len (s : String) : Nat := (strBytes s).length

/-- The static stop-word set (`default_stop_words`), transcribed verbatim
from the source.  `HashSet<&str>::contains` becomes list membership. -/
def stopWords : List String :=
  ["the", "a", "an", "is", "are", "was", "were", "be", "been", "being", "have", "has", "had",
   "do", "does", "did", "will", "would", "could", "should", "may", "might", "must", "shall",
   "can", "need", "dare", "to", "of", "in", "for", "on", "with", "at", "by", "from", "as",
   "into", "through", "during", "before", "after", "above", "below", "between", "under",
   "again", "further", "then", "once", "here", "there", "when", "where", "why", "how", "all",
   "each", "few", "more", "most", "other", "some", "such", "no", "nor", "not", "only", "own",
   "same", "so", "than", "too", "very", "just", "and", "but", "if", "or", "because", "until",
   "while", "this", "that", "these", "those", "it", "its", "he", "she", "they", "them", "his",
   "her", "their", "what", "which", "who", "whom",
   "的", "了", "是", "在", "我", "有", "和", "就", "不", "人", "都", "一", "一个", "上", "也",
   "很", "到", "说", "要", "去", "你", "会", "着", "没有", "看", "好", "自己", "这", "那",
   "lol", "lmao", "haha", "hehe", "xd", "gg", "ez", "wp", "666", "233", "哈哈", "呵呵", "嘿嘿"]

/-- The tokens `process_words` iterates over: split `content` on
whitespace/ASCII punctuation and keep the non-empty fragments. -/
def rawTokens (content : String) : List (List Char) :=
  (splitChars isWordSep content.data).filter (fun t => !t.isEmpty)

/-- The filter applied to a lowercased token: skipped iff shorter than 2
UTF-8 bytes or a stop word. -/
def keepToken (w : String) : Bool := !(utf8Len w < 2 || stopWords.contains w)

/-! ## `StatisticsAggregator` -/

/-- `chrono::DateTime::<Utc>::MIN_UTC.timestamp()`: below this many seconds
`DateTime::from_timestamp` returns `None`. -/
def chronoMinTs : Int := -8334632851200

/-- `chrono::DateTime::<Utc>::MAX_UTC.timestamp()`: above this many seconds
`DateTime::from_timestamp` returns `None`. -/
def chronoMaxTs : Int := 8210298412799

/-- Rust `as i64` on a `u64`: reinterpret mod `2 ^ 64` into `[-2^63, 2^63)`. -/
def i64OfU64 (n : Nat) : Int :=
  let m := n % U64
  if m < 2 ^ 63 then (m : Int) else (m : Int) - (U64 : Int)

/-- The mutable accumulator `StatisticsAggregator`.  `rate_data` is the deque
of finalized rate buckets (front at the head), `current_bucket` the open one;
both hold `(bucket start timestamp, count)`.  The static `stop_words`
reference is the global `stopWords` above. -/
structure StatisticsAggregator where
  totalCount : Nat
  chatCount : Nat
  giftCount : Nat
  talkerHh : TalkerHeavyHitters
  wordHh : WordHeavyHitters
  rateData : List (Int × Nat)
  currentBucket : Option (Int × Nat)
  bucketDurationSecs : Nat
  startTime : Option Int
  maxTopTalkers : Nat
  maxWords : Nat
  maxRatePoints : Nat
deriving DecidableEq

/-- `StatisticsAggregator::with_config(max_top_talkers, max_words,
bucket_duration_secs)`. -/
def StatisticsAggregator.withConfig (maxTopTalkers maxWords bucketDurationSecs : Nat) :
    StatisticsAggregator :=
  let talkerCapacity := satMul (max maxTopTalkers 1) 8
  let wordCapacity := satMul (max maxWords 1) 4
  let cmsWidth := max (Nat.nextPowerOfTwo (satMul wordCapacity 32)) 256
  let cmsDepth := 4
  let maxRatePoints := max ((6 * 60 * 60) / max bucketDurationSecs 1) 60
  { totalCount := 0
    chatCount := 0
    giftCount := 0
    talkerHh := TalkerHeavyHitters.new talkerCapacity
    wordHh := WordHeavyHitters.new wordCapacity (some (CountMinSketch.new cmsWidth cmsDepth))
    rateData := []
    currentBucket := none
    bucketDurationSecs := bucketDurationSecs
    startTime := none
    maxTopTalkers := maxTopTalkers
    maxWords := maxWords
    maxRatePoints := maxRatePoints }

/-- `StatisticsAggregator::new()`. -/
def StatisticsAggregator.mk' : StatisticsAggregator :=
  StatisticsAggregator.withConfig 10 50 10

/-- `StatisticsAggregator::get_bucket_start(timestamp)`:
`(timestamp.timestamp() / dur) * dur` with `i64` (truncating) division,
rebuilt via `DateTime::from_timestamp(bucket_secs, 0).unwrap_or(timestamp)`
— the fallback fires only when `bucket_secs` is outside chrono's
representable range.  (Rust would panic when `bucket_duration_secs` is 0;
the embedding's `tdiv` returns 0 there, and every claim constrains the
duration to be positive.) -/
def StatisticsAggregator.getBucketStart (s : StatisticsAggregator) (timestamp : Int) : Int :=
  let d := i64OfU64 s.bucketDurationSecs
  let bucketSecs := timestamp.tdiv d * d
  if chronoMinTs ≤ bucketSecs ∧ bucketSecs ≤ chronoMaxTs then bucketSecs else timestamp

/-- The `while self.rate_data.len() > self.max_rate_points { pop_front }`
loop. -/
def trimFront (maxLen : Nat) (l : List (Int × Nat)) : List (Int × Nat) :=
  if _h : l.length > maxLen then trimFront maxLen l.tail else l
termination_by l.length
decreasing_by simp only [List.length_tail]; omega

/-- `StatisticsAggregator::update_rate_bucket(timestamp)`: same bucket →
bump its count (unchecked `u64` add); new bucket → push the open bucket onto
the deque, trim the deque to `max_rate_points` from the front, open the new
bucket at count 1; no open bucket → open one. -/
def StatisticsAggregator.updateRateBucket (s : StatisticsAggregator) (timestamp : Int) :
    StatisticsAggregator :=
  let bucketStart := s.getBucketStart timestamp
  match s.currentBucket with
  | some (start, count) =>
    if start = bucketStart then
      { s with currentBucket := some (start, wrapAdd count 1) }
    else
      let rateData := s.rateData ++ [(start, count)]
      let rateData :=
        if rateData.length > s.maxRatePoints then trimFront s.maxRatePoints rateData
        else rateData
      { s with rateData := rateData, currentBucket := some (bucketStart, 1) }
  | none => { s with currentBucket := some (bucketStart, 1) }

/-- The loop body of `StatisticsAggregator::process_words`: lowercase the
token, skip it when its byte length is `< 2` or it is a stop word, and
otherwise increment the word heavy-hitter. -/
def wordStep (s : StatisticsAggregator) (word : List Char) : StatisticsAggregator :=
  let wordLower := lowerToken word
  if utf8Len wordLower < 2 ∨ stopWords.contains wordLower then s
  else { s with wordHh := s.wordHh.increment wordLower }

/-- `StatisticsAggregator::process_words(content)`: fold `wordStep` over the
non-empty fragments of the whitespace/punctuation split. -/
def StatisticsAggregator.processWords (s : StatisticsAggregator) (content : String) :
    StatisticsAggregator :=
  (rawTokens content).foldl wordStep s

/-- `StatisticsAggregator::record_message(user_id, username, content,
is_gift, timestamp)`. -/
def StatisticsAggregator.recordMessage (s : StatisticsAggregator)
    (userId username content : String) (isGift : Bool) (timestamp : Int) :
    StatisticsAggregator :=
  let s := if s.startTime.isNone then { s with startTime := some timestamp } else s
  let s := { s with totalCount := wrapAdd s.totalCount 1 }
  let s :=
    if isGift then { s with giftCount := wrapAdd s.giftCount 1 }
    else { s with chatCount := wrapAdd s.chatCount 1 }
  let s := { s with talkerHh := s.talkerHh.increment userId username }
  let s := if isGift = false ∧ content ≠ "" then s.processWords content else s
  s.updateRateBucket timestamp

/-- One recorded message, for reasoning about call sequences. -/
structure Msg where
  userId : String
  username : String
  content : String
  isGift : Bool
  timestamp : Int
deriving DecidableEq

/-- Feed a sequence of `record_message` calls. -/
def applyMessages (s : StatisticsAggregator) (msgs : List Msg) : StatisticsAggregator :=
  msgs.foldl (fun s m => s.recordMessage m.userId m.username m.content m.isGift m.timestamp) s

/-- Feed a sequence of `increment` calls to a talker table. -/
def applyTalkerCalls (s : TalkerHeavyHitters) (calls : List (String × String)) :
    TalkerHeavyHitters :=
  calls.foldl (fun s c => s.increment c.1 c.2) s

/-- Feed a sequence of `increment` calls to a word table. -/
def applyWordCalls (s : WordHeavyHitters) (calls : List String) : WordHeavyHitters :=
  calls.foldl (fun s w => s.increment w) s

/-- Feed a sequence of `increment(value, amount)` calls to a sketch. -/
def applySketchCalls (s : CountMinSketch) (calls : List (String × Nat)) : CountMinSketch :=
  calls.foldl (fun s c => s.increment c.1 c.2) s

/-- Every rate-bucket count stored in the aggregator (finalized deque plus
the open bucket). -/
def bucketCounts (s : StatisticsAggregator) : List Nat :=
  s.rateData.map (fun b => b.2) ++ (s.currentBucket.map (fun b => b.2)).toList

/-- The effect of `wordStep` on the word table alone. -/
def wordHhStep (h : WordHeavyHitters) (w : List Char) : WordHeavyHitters :=
  if utf8Len (lowerToken w) < 2 ∨ stopWords.contains (lowerToken w) then h
  else h.increment (lowerToken w)

/-- The cells a value hashes to, row by row (row seed starting at `i`). -/
def vCells (v : String) (w : Nat) : Nat → List (List Nat) → List Nat
  | _, [] => []
  | i, row :: rest =>
    row.getD (hashWithSeed v i % w) 0 :: vCells v w (i + 1) rest

/-- The exact total amount that a call sequence increments for `v`. -/
def totalFor (v : String) (calls : List (String × Nat)) : Nat :=
  ((calls.filter (fun c => c.1 == v)).map (fun c => c.2)).sum

/-- The running invariant for C4: well-formed rows, bounded cells, and a
`min (total, u64::MAX)` lower bound on all of `v`'s cells. -/
def SketchInv (s : CountMinSketch) (v : String) (T : Nat) : Prop :=
  (∀ row ∈ s.rows, row.length = s.width) ∧ 0 < s.width ∧
  (∀ row ∈ s.rows, ∀ c ∈ row, c ≤ u64Max) ∧
  (∀ x ∈ vCells v s.width 0 s.rows, min T u64Max ≤ x)

/-- The rate-bucket invariant claimed by the spec: finalized buckets are
strictly time-ordered, never exceed the retention cap, the open bucket (when
present) is later than every finalized bucket, and finalized buckets only
exist once a bucket has been opened. -/
def RateInv (s : StatisticsAggregator) : Prop :=
  List.Chain' (fun a b => a < b) (s.rateData.map (fun b => b.1)) ∧
  s.rateData.length ≤ s.maxRatePoints ∧
  (∀ b ∈ s.currentBucket, ∀ x ∈ s.rateData, x.1 < b.1) ∧
  (s.currentBucket = none → s.rateData = [])

/-! ## Session collection coordinator (`service.rs`)

The coordinator is `tokio` code; the embedding models exactly the shared
state the claims observe — the `collections` registry (`DashMap`, whose
`remove`/`insert` are atomic), the `sessions_by_streamer` reverse index, and
the broadcast/persistence side effects — and models each relevant code path
as a sequence of atomic steps on that state. -/

/-- Outcome of the synchronous prefix of `start_collection`. -/
inductive StartOutcome
  | errAlreadyActive
  | errNoProvider
  | errNoRoomId
  | registered (roomId : String)
deriving DecidableEq

/-- The coordinator state observed by the duplicate-start claim: the
`collections` registry (session id → the registered `CollectionState`,
reduced to its `streamer_id` — its token and channels are modelled in the
race model below), the reverse `sessions_by_streamer` index, and the
broadcast event stream (event count suffices for the claims). -/
structure ServiceState where
  collections : List (String × String)
  sessionsByStreamer : List (String × String)
  eventCount : Nat
deriving DecidableEq

/-- `DashMap::insert`: replace any existing entry for the key. -/
def mapInsert (l : List (String × String)) (k v : String) : List (String × String) :=
  l.eraseP (fun e => e.1 == k) ++ [(k, v)]

/-- A provider as `start_collection` consumes it: its platform tag and the
result of URL-based room-id extraction (an external collaborator). -/
structure ProviderModel where
  platform : String
  extractRoomId : Option String
deriving DecidableEq

/-- Room-id resolution of `start_collection`: the platform-specific extras
field first (`presenter_uid` / `id_str` / `rid`), URL extraction as the
fallback. -/
def roomIdOf (p : ProviderModel) (extras : Option (List (String × String))) : Option String :=
  if p.platform = "huya" then
    (extras.bind (fun e => e.lookup "presenter_uid")).orElse (fun _ => p.extractRoomId)
  else if p.platform = "douyin" then
    (extras.bind (fun e => e.lookup "id_str")).orElse (fun _ => p.extractRoomId)
  else if p.platform = "douyu" then
    (extras.bind (fun e => e.lookup "rid")).orElse (fun _ => p.extractRoomId)
  else p.extractRoomId

/-- The synchronous prefix of `DanmuService::start_collection`, through
registration: the duplicate-start guard (`contains_key`), provider lookup,
room-id resolution, and the registry + reverse-index insertions.  The task
spawn and readiness wait that follow are asynchronous and are modelled by
the race model below; the duplicate branch returns before any of them. -/
def startCollectionSync (st : ServiceState) (sessionId streamerId : String)
    (provider : Option ProviderModel) (extras : Option (List (String × String))) :
    StartOutcome × ServiceState :=
  if (st.collections.lookup sessionId).isSome then (.errAlreadyActive, st)
  else
    match provider with
    | none => (.errNoProvider, st)
    | some p =>
      match roomIdOf p extras with
      | none => (.errNoRoomId, st)
      | some rid =>
        (.registered rid,
         { st with
             collections := mapInsert st.collections sessionId streamerId
             sessionsByStreamer := mapInsert st.sessionsByStreamer streamerId sessionId })

/-- One configuration of the cleanup race between `stop_collection` and the
spawned task's terminal cleanup, for the concrete session `"s1"` of
streamer `"m1"`.

The runner's terminal result is modelled as graceful success: `runner.rs`
is not part of the analysed sources, and its contract (§6 of the spec) is
that cancellation finalizes the collection and returns final statistics.

Task program counter `pcT` (the code after `runner.run` returns):
0 — atomic `collections.remove("s1")` (`tWon`/`tStreamer` record the
outcome; on `None` the whole cleanup block is skipped, jump to 5);
1 — read `sessions_by_streamer.get(streamer)` and compare with `"s1"`
(skip to 3 when it does not match); 2 — remove the reverse-index entry;
3 — `persist_statistics`; 4 — broadcast `CollectionStopped`; 5 — send the
`done` one-shot; 6 — finished.

Stop program counter `pcS` (`stop_collection("s1")`):
0 — atomic `collections.remove("s1")` (on `None` return the "no active
collection" error, jump to 9); 1 — reverse-index check; 2 — reverse-index
removal; 3 — send the `Stop` command; 4 — cancel the token; 5 — await the
`done` one-shot under `STOP_TIMEOUT` (10 s): the receive completes once
`doneSent` holds, but while it does not the timeout may fire (the `Err(_)`
branch of `tokio::time::timeout`), after which `stop_collection` logs a
warning and returns `DanmuStatistics::default()` with no persistence and no
broadcast (jump to 10, recorded in `timedOut`); 6 — `persist_statistics`;
7 — broadcast `CollectionStopped`; 8 — finished (ok, final statistics);
9 — finished (error); 10 — finished (ok, default statistics after the stop
timeout).  The `Ok(Ok(Err(_)))` and `Ok(Err(_))` fall-through branches of
the await are unreachable here: under the graceful-success runner model the
task always sends `Ok(statistics)` on the `done` one-shot. -/
structure RaceConfig where
  pcS : Nat
  pcT : Nat
  collections : List (String × String)
  rev : List (String × String)
  stopped : Nat
  persisted : Nat
  doneSent : Bool
  timedOut : Bool
  sWon : Bool
  tWon : Bool
  sStreamer : Option String
  tStreamer : Option String
deriving DecidableEq

/-- The initial race configuration: session `"s1"` registered for streamer
`"m1"`, no side effects yet. -/
def raceInit : RaceConfig :=
  ⟨0, 0, [("s1", "m1")], [("m1", "s1")], 0, 0, false, false, false, false, none, none⟩

/-- One atomic step of `stop_collection` (stutters when blocked or done). -/
def stepS (c : RaceConfig) : RaceConfig :=
  match c.pcS with
  | 0 =>
    match c.collections.lookup "s1" with
    | some m =>
      { c with
          collections := c.collections.eraseP (fun e => e.1 == "s1")
          sWon := true, sStreamer := some m, pcS := 1 }
    | none => { c with pcS := 9 }
  | 1 =>
    match c.sStreamer with
    | some m =>
      if c.rev.lookup m == some "s1" then { c with pcS := 2 } else { c with pcS := 3 }
    | none => { c with pcS := 3 }
  | 2 =>
    match c.sStreamer with
    | some m => { c with rev := c.rev.eraseP (fun e => e.1 == m), pcS := 3 }
    | none => { c with pcS := 3 }
  | 3 => { c with pcS := 4 }
  | 4 => { c with pcS := 5 }
  | 5 => if c.doneSent then { c with pcS := 6 } else c
  | 6 => { c with persisted := c.persisted + 1, pcS := 7 }
  | 7 => { c with stopped := c.stopped + 1, pcS := 8 }
  | _ => c

/-- One atomic step of the task's terminal cleanup (stutters when done). -/
def stepT (c : RaceConfig) : RaceConfig :=
  match c.pcT with
  | 0 =>
    match c.collections.lookup "s1" with
    | some m =>
      { c with
          collections := c.collections.eraseP (fun e => e.1 == "s1")
          tWon := true, tStreamer := some m, pcT := 1 }
    | none => { c with pcT := 5 }
  | 1 =>
    match c.tStreamer with
    | some m =>
      if c.rev.lookup m == some "s1" then { c with pcT := 2 } else { c with pcT := 3 }
    | none => { c with pcT := 3 }
  | 2 =>
    match c.tStreamer with
    | some m => { c with rev := c.rev.eraseP (fun e => e.1 == m), pcT := 3 }
    | none => { c with pcT := 3 }
  | 3 => { c with persisted := c.persisted + 1, pcT := 4 }
  | 4 => { c with stopped := c.stopped + 1, pcT := 5 }
  | 5 => { c with doneSent := true, pcT := 6 }
  | _ => c

/-- The `STOP_TIMEOUT` of `stop_collection` firing while the `done`
one-shot is awaited (the `Err(_)` branch of `tokio::time::timeout` at
service.rs:559): only possible while the signal has not been sent, since
`timeout` polls the inner receive first and a sent value completes it.
`stop_collection` then performs no persistence and no broadcast and returns
`DanmuStatistics::default()`. -/
def stepE (c : RaceConfig) : RaceConfig :=
  if c.pcS = 5 ∧ c.doneSent = false then { c with pcS := 10, timedOut := true } else c

/-- A scheduling choice: run one atomic step of `stop_collection`, of the
task's terminal cleanup, or let the stop timeout clock expire. -/
inductive RaceMove
  | stop
  | task
  | expire
deriving DecidableEq

/-- Run one scheduled step. -/
def raceStep (m : RaceMove) (c : RaceConfig) : RaceConfig :=
  match m with
  | .stop => stepS c
  | .task => stepT c
  | .expire => stepE c

/-- Run an arbitrary interleaving from the initial configuration. -/
def runRace (sched : List RaceMove) : RaceConfig :=
  sched.foldl (fun c m => raceStep m c) raceInit

/-- Both paths have run to completion. -/
def RaceDone (c : RaceConfig) : Prop :=
  c.pcT = 6 ∧ (c.pcS = 8 ∨ c.pcS = 9 ∨ c.pcS = 10)

/-- The outcome claimed by the spec: exactly one persistence and one
`CollectionStopped` broadcast, and no registry or reverse-index entry left
for the session. -/
def RacePost (c : RaceConfig) : Prop :=
  c.stopped = 1 ∧ c.persisted = 1 ∧
  c.collections.lookup "s1" = none ∧ c.rev.lookup "m1" = none

/-- The amended outcome: the side-effect sequence happens exactly once when
the `done` signal arrives within the stop timeout, and not at all when the
timeout fires first (then `stop_collection` skips it, and the task — whose
registry removal found `None` — skips it too); never twice.  The registry
and reverse index are emptied either way. -/
def RacePostTimed (c : RaceConfig) : Prop :=
  c.stopped = (if c.timedOut then 0 else 1) ∧ c.persisted = c.stopped ∧
  c.collections.lookup "s1" = none ∧ c.rev.lookup "m1" = none

/-- Insert a configuration if it is new. -/
def insertConfig (acc : List RaceConfig) (c : RaceConfig) : List RaceConfig :=
  if c ∈ acc then acc else acc ++ [c]

/-- One breadth-first expansion of a configuration set. -/
def expandConfigs (acc : List RaceConfig) : List RaceConfig :=
  acc.foldl
    (fun acc c =>
      insertConfig (insertConfig (insertConfig acc (stepS c)) (stepT c)) (stepE c))
    acc

/-- Iterated expansion. -/
def expandN : Nat → List RaceConfig → List RaceConfig
  | 0, acc => acc
  | n + 1, acc => expandN n (expandConfigs acc)

/-- The reachable configurations (20 expansions reach the fixpoint: every
interleaving terminates within 18 non-stuttering steps). -/
def raceReach : List RaceConfig := expandN 20 [raceInit]

instance (c : RaceConfig) : Decidable (RaceDone c) := by
  unfold RaceDone
  infer_instance

instance (c : RaceConfig) : Decidable (RacePost c) := by
  unfold RacePost
  infer_instance

instance (c : RaceConfig) : Decidable (RacePostTimed c) := by
  unfold RacePostTimed
  infer_instance

/-! ## Basic arithmetic facts -/

theorem U64_pos : 0 < U64 := by decide

theorem satAdd_le_u64Max (a b : Nat) : satAdd a b ≤ u64Max := min_le_right _ _

theorem le_satAdd_left {a : Nat} (b : Nat) (h : a ≤ u64Max) : a ≤ satAdd a b := by
  unfold satAdd
  omega

theorem wrapAdd_le (a b : Nat) : wrapAdd a b ≤ a + b :=
  Nat.mod_le _ _

theorem wrapAdd_eq_of_lt {a b : Nat} (h : a + b < U64) : wrapAdd a b = a + b :=
  Nat.mod_eq_of_lt h

theorem wrapAdd_lt (a b : Nat) : wrapAdd a b < U64 :=
  Nat.mod_lt _ U64_pos

/-! ## Facts about `min_by_key` -/

theorem minStep_isSome {β : Type} (count : β → Nat) (acc : Option (String × Nat))
    (e : String × β) : (minStep count acc e).isSome := by
  unfold minStep
  cases acc with
  | none => rfl
  | some p =>
    obtain ⟨k, c⟩ := p
    by_cases h : count e.2 < c <;> simp [h]

theorem minFold_isSome {β : Type} (count : β → Nat) :
    ∀ (l : List (String × β)) (acc : Option (String × Nat)), acc.isSome →
      (l.foldl (minStep count) acc).isSome := by
  intro l
  induction l with
  | nil => intro acc h; simpa using h
  | cons e rest ih =>
    intro acc _
    exact ih (minStep count acc e) (minStep_isSome count acc e)

theorem minByCount_isSome {β : Type} (count : β → Nat) (l : List (String × β)) (hl : l ≠ []) :
    (minByCount count l).isSome := by
  cases l with
  | nil => exact absurd rfl hl
  | cons e rest =>
    exact minFold_isSome count rest _ (minStep_isSome count none e)

theorem minFold_spec {β : Type} (count : β → Nat) :
    ∀ (l : List (String × β)) (acc : Option (String × Nat)) (k : String) (c : Nat),
      l.foldl (minStep count) acc = some (k, c) →
      ((∃ b, (k, b) ∈ l ∧ count b = c) ∨ acc = some (k, c)) ∧
        (∀ e ∈ l, c ≤ count e.2) ∧ (∀ k0 c0, acc = some (k0, c0) → c ≤ c0) := by
  intro l
  induction l with
  | nil =>
    intro acc k c h
    simp only [List.foldl_nil] at h
    refine ⟨Or.inr h, by simp, ?_⟩
    intro k0 c0 h0
    rw [h] at h0
    cases h0
    exact le_refl _
  | cons e rest ih =>
    intro acc k c h
    simp only [List.foldl_cons] at h
    obtain ⟨hmem, hmin, hacc⟩ := ih (minStep count acc e) k c h
    have hstep : ∀ k0 c0, acc = some (k0, c0) →
        ∃ k1 c1, minStep count acc e = some (k1, c1) ∧ c1 ≤ c0 ∧ c1 ≤ count e.2 := by
      intro k0 c0 h0
      subst h0
      unfold minStep
      by_cases hc : count e.2 < c0
      · exact ⟨e.1, count e.2, by simp [hc], Nat.le_of_lt hc, le_refl _⟩
      · exact ⟨k0, c0, by simp [hc], le_refl _, Nat.le_of_not_lt hc⟩
    have hce : c ≤ count e.2 := by
      cases hacc0 : acc with
      | none =>
        have : minStep count acc e = some (e.1, count e.2) := by
          subst hacc0; rfl
        have := hacc e.1 (count e.2) this
        exact this
      | some p =>
        obtain ⟨k0, c0⟩ := p
        obtain ⟨k1, c1, hs, _, hc1e⟩ := hstep k0 c0 hacc0
        exact le_trans (hacc k1 c1 hs) hc1e
    refine ⟨?_, ?_, ?_⟩
    · -- membership (or the original accumulator)
      rcases hmem with ⟨b, hb, hbc⟩ | hmem
      · exact Or.inl ⟨b, List.mem_cons_of_mem _ hb, hbc⟩
      · cases hacc0 : acc with
        | none =>
          subst hacc0
          unfold minStep at hmem
          simp only at hmem
          cases hmem
          exact Or.inl ⟨e.2, List.mem_cons_self _ _, rfl⟩
        | some p =>
          obtain ⟨k0, c0⟩ := p
          subst hacc0
          unfold minStep at hmem
          simp only at hmem
          by_cases hc : count e.2 < c0
          · simp [hc] at hmem
            obtain ⟨h1, h2⟩ := hmem
            refine Or.inl ⟨e.2, ?_, h2⟩
            subst h1
            exact List.mem_cons_self _ _
          · simp [hc] at hmem
            obtain ⟨h1, h2⟩ := hmem
            exact Or.inr (by simp [h1, h2])
    · intro e' he'
      rcases List.mem_cons.mp he' with he' | he'
      · subst he'; exact hce
      · exact hmin e' he'
    · intro k0 c0 h0
      obtain ⟨k1, c1, hs, hc10, _⟩ := hstep k0 c0 h0
      exact le_trans (hacc k1 c1 hs) hc10

theorem minByCount_spec {β : Type} (count : β → Nat) (l : List (String × β)) (k : String)
    (c : Nat) (h : minByCount count l = some (k, c)) :
    (∃ b, (k, b) ∈ l ∧ count b = c) ∧ (∀ e ∈ l, c ≤ count e.2) := by
  obtain ⟨hmem, hmin, _⟩ := minFold_spec count l none k c h
  refine ⟨?_, hmin⟩
  rcases hmem with h | h
  · exact h
  · cases h

/-- Erasing a key returned by `min_by_key` and appending the fresh entry
keeps the table size unchanged. -/
theorem length_eraseP_append {β : Type} (l : List (String × β)) (k : String) (_b : β)
    (hmem : ∃ v, (k, v) ∈ l) (x : String × β) :
    (l.eraseP (fun e => e.1 == k) ++ [x]).length = l.length := by
  obtain ⟨v, hv⟩ := hmem
  have hp : ((fun (e : String × β) => e.1 == k) (k, v)) = true := by simp
  have hlen : (l.eraseP (fun e => e.1 == k)).length = l.length - 1 :=
    List.length_eraseP_of_mem hv hp
  have hpos : 0 < l.length := List.length_pos.mpr (List.ne_nil_of_mem hv)
  simp only [List.length_append, List.length_cons, List.length_nil, hlen]
  omega

/-! ## Claim C1: table size never exceeds the configured capacity -/

theorem talker_increment_capacity (s : TalkerHeavyHitters) (u un : String) :
    (s.increment u un).capacity = s.capacity := by
  unfold TalkerHeavyHitters.increment
  cases hlk : s.counters.lookup u with
  | some _ => rfl
  | none =>
    by_cases hlen : s.counters.length < s.capacity
    · simp [hlen]
    · simp only [hlen]
      cases hmin : minByCount (fun c => c.count) s.counters with
      | none => simp
      | some p => obtain ⟨k, m⟩ := p; simp

theorem talker_increment_length (s : TalkerHeavyHitters) (u un : String)
    (h : s.counters.length ≤ s.capacity) :
    (s.increment u un).counters.length ≤ s.capacity := by
  unfold TalkerHeavyHitters.increment
  cases hlk : s.counters.lookup u with
  | some _ => simpa using h
  | none =>
    by_cases hlen : s.counters.length < s.capacity
    · simp [hlen]
      omega
    · simp only [hlen]
      cases hmin : minByCount (fun c => c.count) s.counters with
      | none => simpa using h
      | some p =>
        obtain ⟨k, m⟩ := p
        obtain ⟨⟨b, hb, _⟩, _⟩ := minByCount_spec _ _ _ _ hmin
        simpa [length_eraseP_append s.counters k b ⟨b, hb⟩] using h

theorem word_increment_capacity (s : WordHeavyHitters) (w : String) :
    (s.increment w).capacity = s.capacity := by
  unfold WordHeavyHitters.increment
  cases hlk : s.counters.lookup w with
  | some _ => simp [hlk]
  | none =>
    by_cases hlen : s.counters.length < s.capacity
    · simp [hlk, hlen]
    · simp only [hlk, hlen, if_false]
      cases hmin : minByCount (fun c => c.count) s.counters with
      | none => simp [hmin]
      | some p => obtain ⟨k, m⟩ := p; simp [hmin]

theorem word_increment_length (s : WordHeavyHitters) (w : String)
    (h : s.counters.length ≤ s.capacity) :
    (s.increment w).counters.length ≤ s.capacity := by
  unfold WordHeavyHitters.increment
  cases hlk : s.counters.lookup w with
  | some _ => simpa [hlk] using h
  | none =>
    by_cases hlen : s.counters.length < s.capacity
    · simp [hlk, hlen]
      omega
    · simp only [hlk, hlen, if_false]
      cases hmin : minByCount (fun c => c.count) s.counters with
      | none => simpa [hmin] using h
      | some p =>
        obtain ⟨k, m⟩ := p
        obtain ⟨⟨b, hb, _⟩, _⟩ := minByCount_spec _ _ _ _ hmin
        simpa [hmin, length_eraseP_append s.counters k b ⟨b, hb⟩] using h

theorem applyTalkerCalls_length (calls : List (String × String)) :
    ∀ (s : TalkerHeavyHitters), s.counters.length ≤ s.capacity →
      (applyTalkerCalls s calls).counters.length ≤ (applyTalkerCalls s calls).capacity := by
  induction calls with
  | nil => intro s h; simpa [applyTalkerCalls] using h
  | cons c rest ih =>
    intro s h
    have h1 := talker_increment_length s c.1 c.2 h
    have h2 := talker_increment_capacity s c.1 c.2
    simpa [applyTalkerCalls] using ih (s.increment c.1 c.2) (by rw [h2]; exact h1)

theorem applyWordCalls_length (calls : List String) :
    ∀ (s : WordHeavyHitters), s.counters.length ≤ s.capacity →
      (applyWordCalls s calls).counters.length ≤ (applyWordCalls s calls).capacity := by
  induction calls with
  | nil => intro s h; simpa [applyWordCalls] using h
  | cons c rest ih =>
    intro s h
    have h1 := word_increment_length s c h
    have h2 := word_increment_capacity s c
    simpa [applyWordCalls] using ih (s.increment c) (by rw [h2]; exact h1)

theorem applyTalkerCalls_capacity (calls : List (String × String)) :
    ∀ (s : TalkerHeavyHitters), (applyTalkerCalls s calls).capacity = s.capacity := by
  induction calls with
  | nil => intro s; rfl
  | cons c rest ih =>
    intro s
    simpa [applyTalkerCalls, talker_increment_capacity]
      using (ih (s.increment c.1 c.2)).trans (talker_increment_capacity s c.1 c.2)

theorem applyWordCalls_capacity (calls : List String) :
    ∀ (s : WordHeavyHitters), (applyWordCalls s calls).capacity = s.capacity := by
  induction calls with
  | nil => intro s; rfl
  | cons c rest ih =>
    intro s
    simpa [applyWordCalls, word_increment_capacity]
      using (ih (s.increment c)).trans (word_increment_capacity s c)

/-! ## Field-preservation lemmas for `record_message` -/

/-- `update_rate_bucket` only touches `rate_data` and `current_bucket`. -/
theorem updateRateBucket_fields (s : StatisticsAggregator) (t : Int) :
    (s.updateRateBucket t).totalCount = s.totalCount ∧
    (s.updateRateBucket t).chatCount = s.chatCount ∧
    (s.updateRateBucket t).giftCount = s.giftCount ∧
    (s.updateRateBucket t).talkerHh = s.talkerHh ∧
    (s.updateRateBucket t).wordHh = s.wordHh ∧
    (s.updateRateBucket t).maxRatePoints = s.maxRatePoints ∧
    (s.updateRateBucket t).bucketDurationSecs = s.bucketDurationSecs := by
  unfold StatisticsAggregator.updateRateBucket
  cases s.currentBucket with
  | none => simp
  | some b =>
    obtain ⟨start, count⟩ := b
    by_cases hb : start = s.getBucketStart t <;> simp [hb]

/-- `wordStep` only touches `word_hh`. -/
theorem wordStep_fields (s : StatisticsAggregator) (w : List Char) :
    (wordStep s w).totalCount = s.totalCount ∧
    (wordStep s w).chatCount = s.chatCount ∧
    (wordStep s w).giftCount = s.giftCount ∧
    (wordStep s w).talkerHh = s.talkerHh ∧
    (wordStep s w).rateData = s.rateData ∧
    (wordStep s w).currentBucket = s.currentBucket ∧
    (wordStep s w).maxRatePoints = s.maxRatePoints ∧
    (wordStep s w).bucketDurationSecs = s.bucketDurationSecs := by
  unfold wordStep
  by_cases hw : utf8Len (lowerToken w) < 2 ∨ lowerToken w ∈ stopWords <;> simp [hw]

/-- `process_words` only touches `word_hh`. -/
theorem processWords_fields (content : String) :
    ∀ (s : StatisticsAggregator),
      (s.processWords content).totalCount = s.totalCount ∧
      (s.processWords content).chatCount = s.chatCount ∧
      (s.processWords content).giftCount = s.giftCount ∧
      (s.processWords content).talkerHh = s.talkerHh ∧
      (s.processWords content).rateData = s.rateData ∧
      (s.processWords content).currentBucket = s.currentBucket ∧
      (s.processWords content).maxRatePoints = s.maxRatePoints ∧
      (s.processWords content).bucketDurationSecs = s.bucketDurationSecs := by
  unfold StatisticsAggregator.processWords
  generalize rawTokens content = toks
  induction toks with
  | nil => intro s; simp
  | cons w rest ih =>
    intro s
    simp only [List.foldl_cons]
    obtain ⟨i1, i2, i3, i4, i5, i6, i7, i8⟩ := ih (wordStep s w)
    obtain ⟨w1, w2, w3, w4, w5, w6, w7, w8⟩ := wordStep_fields s w
    exact ⟨i1.trans w1, i2.trans w2, i3.trans w3, i4.trans w4, i5.trans w5,
      i6.trans w6, i7.trans w7, i8.trans w8⟩

/-- The three global counters after one `record_message` call. -/
theorem recordMessage_counts (s : StatisticsAggregator) (u un content : String)
    (g : Bool) (t : Int) :
    (s.recordMessage u un content g t).totalCount = wrapAdd s.totalCount 1 ∧
    (s.recordMessage u un content g t).chatCount =
      (if g then s.chatCount else wrapAdd s.chatCount 1) ∧
    (s.recordMessage u un content g t).giftCount =
      (if g then wrapAdd s.giftCount 1 else s.giftCount) := by
  unfold StatisticsAggregator.recordMessage
  by_cases hst : s.startTime.isNone <;>
    by_cases hg : g <;>
      by_cases hc : content ≠ "" <;>
        simp [hst, hg, hc, updateRateBucket_fields, processWords_fields]

/-- Global counters over a whole call sequence (wrapping mod `2 ^ 64`). -/
theorem applyMessages_counts (msgs : List Msg) :
    ∀ (s : StatisticsAggregator), s.totalCount < U64 → s.chatCount < U64 →
      s.giftCount < U64 →
      (applyMessages s msgs).totalCount = (s.totalCount + msgs.length) % U64 ∧
      (applyMessages s msgs).chatCount =
        (s.chatCount + msgs.countP (fun m => !m.isGift)) % U64 ∧
      (applyMessages s msgs).giftCount =
        (s.giftCount + msgs.countP (fun m => m.isGift)) % U64 := by
  induction msgs with
  | nil =>
    intro s h1 h2 h3
    simp [applyMessages, Nat.mod_eq_of_lt h1, Nat.mod_eq_of_lt h2, Nat.mod_eq_of_lt h3]
  | cons m rest ih =>
    intro s h1 h2 h3
    obtain ⟨ht, hc, hg⟩ :=
      recordMessage_counts s m.userId m.username m.content m.isGift m.timestamp
    have step : applyMessages s (m :: rest) =
        applyMessages (s.recordMessage m.userId m.username m.content m.isGift m.timestamp)
          rest := by
      simp [applyMessages]
    obtain ⟨iht, ihc, ihg⟩ := ih
      (s.recordMessage m.userId m.username m.content m.isGift m.timestamp)
      (by rw [ht]; exact wrapAdd_lt _ _)
      (by rw [hc]; cases m.isGift <;> simp [wrapAdd_lt, h2])
      (by rw [hg]; cases m.isGift <;> simp [wrapAdd_lt, h3])
    rw [step]
    have wrap_shift : ∀ a k j : Nat, (wrapAdd a j + k) % U64 = (a + (k + j)) % U64 := by
      intro a k j
      unfold wrapAdd
      rw [Nat.mod_add_mod]
      congr 1
      omega
    refine ⟨?_, ?_, ?_⟩
    · rw [iht, ht, wrap_shift]
      simp
    · rw [ihc, hc, List.countP_cons]
      cases hm : m.isGift
      · simp only [hm, Bool.false_eq_true, if_false, wrap_shift]
        simp
      · simp only [hm, if_true]
        simp
    · rw [ihg, hg, List.countP_cons]
      cases hm : m.isGift
      · simp only [hm, Bool.false_eq_true, if_false]
        simp
      · simp only [hm, if_true, wrap_shift]

/-! ## Saturation bounds for heavy-hitter counts and sketch cells -/

theorem countP_not_add (l : List Msg) :
    l.countP (fun m => !m.isGift) + l.countP (fun m => m.isGift) = l.length := by
  induction l with
  | nil => rfl
  | cons m rest ih => cases hm : m.isGift <;> simp [List.countP_cons, hm] <;> omega

/-- `cmsMinRows` never exceeds its accumulator. -/
theorem cmsMinRows_le_acc (v : String) (w : Nat) :
    ∀ (rows : List (List Nat)) (i acc : Nat), cmsMinRows v w i rows acc ≤ acc := by
  intro rows
  induction rows with
  | nil => intro i acc; simp [cmsMinRows]
  | cons row rest ih =>
    intro i acc
    exact le_trans (ih (i + 1) _) (min_le_left _ _)

/-- `estimate` is at most `u64::MAX`. -/
theorem estimate_le_u64Max (s : CountMinSketch) (v : String) : s.estimate v ≤ u64Max :=
  cmsMinRows_le_acc v s.width s.rows 0 u64Max

/-- All cells stay at most `u64::MAX` through `cmsIncRows`. -/
theorem cmsIncRows_cells_le (v : String) (inc w : Nat) :
    ∀ (rows : List (List Nat)) (i : Nat),
      (∀ row ∈ rows, ∀ c ∈ row, c ≤ u64Max) →
      ∀ row ∈ cmsIncRows v inc w i rows, ∀ c ∈ row, c ≤ u64Max := by
  intro rows
  induction rows with
  | nil => intro i h row hrow; simp [cmsIncRows] at hrow
  | cons r rest ih =>
    intro i h row hrow
    simp only [cmsIncRows] at hrow
    rcases List.mem_cons.mp hrow with hrow | hrow
    · subst hrow
      intro c hc
      rcases List.mem_or_eq_of_mem_set hc with hc | hc
      · exact h r (List.mem_cons_self _ _) c hc
      · subst hc; exact satAdd_le_u64Max _ _
    · exact ih (i + 1) (fun row h' => h row (List.mem_cons_of_mem _ h')) row hrow

/-- All cells stay at most `u64::MAX` through `CountMinSketch::increment`. -/
theorem sketch_increment_cells_le (s : CountMinSketch) (v : String) (inc : Nat)
    (h : ∀ row ∈ s.rows, ∀ c ∈ row, c ≤ u64Max) :
    ∀ row ∈ (s.increment v inc).rows, ∀ c ∈ row, c ≤ u64Max := by
  unfold CountMinSketch.increment
  exact cmsIncRows_cells_le v inc s.width s.rows 0 h

/-- Talker counts stay at most `u64::MAX` through `increment`. -/
theorem talker_increment_counts_le (s : TalkerHeavyHitters) (u un : String)
    (h : ∀ e ∈ s.counters, e.2.count ≤ u64Max) :
    ∀ e ∈ (s.increment u un).counters, e.2.count ≤ u64Max := by
  unfold TalkerHeavyHitters.increment
  cases hlk : s.counters.lookup u with
  | some _ =>
    intro e he
    simp only [List.mem_map] at he
    obtain ⟨e0, he0, hee⟩ := he
    by_cases hu : e0.1 = u
    · subst hee; simp [hu, satAdd_le_u64Max]
    · subst hee; simpa [hu] using h e0 he0
  | none =>
    by_cases hlen : s.counters.length < s.capacity
    · simp only [hlen, if_true]
      intro e he
      rcases List.mem_append.mp he with he | he
      · exact h e he
      · simp at he
        simp [he]
        decide
    · simp only [hlen, if_false]
      cases hmin : minByCount (fun c => c.count) s.counters with
      | none => exact h
      | some p =>
        obtain ⟨k, m⟩ := p
        intro e he
        rcases List.mem_append.mp he with he | he
        · exact h e (List.eraseP_subset _ he)
        · simp at he
          simp [he, satAdd_le_u64Max]

/-- Word counts stay at most `u64::MAX` through `increment`. -/
theorem word_increment_counts_le (s : WordHeavyHitters) (w : String)
    (h : ∀ e ∈ s.counters, e.2.count ≤ u64Max) :
    ∀ e ∈ (s.increment w).counters, e.2.count ≤ u64Max := by
  unfold WordHeavyHitters.increment
  cases hlk : s.counters.lookup w with
  | some _ =>
    intro e he
    simp only [List.mem_map] at he
    obtain ⟨e0, he0, hee⟩ := he
    by_cases hu : e0.1 = w
    · subst hee; simp [hu, satAdd_le_u64Max]
    · subst hee; simpa [hu] using h e0 he0
  | none =>
    by_cases hlen : s.counters.length < s.capacity
    · simp only [hlen, if_true]
      intro e he
      rcases List.mem_append.mp he with he | he
      · exact h e he
      · simp at he
        simp [he]
        decide
    · simp only [hlen, if_false]
      cases hmin : minByCount (fun c => c.count) s.counters with
      | none => exact h
      | some p =>
        obtain ⟨k, m⟩ := p
        intro e he
        rcases List.mem_append.mp he with he | he
        · exact h e (List.eraseP_subset _ he)
        · simp at he
          cases hsk : s.sketch with
          | none => simp [hsk, he, satAdd_le_u64Max]
          | some sk =>
            simp [hsk, he, satAdd_le_u64Max, estimate_le_u64Max]

/-- The word table's sketch cells stay bounded through `increment`. -/
theorem word_increment_sketch_le (s : WordHeavyHitters) (w : String)
    (h : ∀ sk, s.sketch = some sk → ∀ row ∈ sk.rows, ∀ c ∈ row, c ≤ u64Max) :
    ∀ sk, (s.increment w).sketch = some sk → ∀ row ∈ sk.rows, ∀ c ∈ row, c ≤ u64Max := by
  unfold WordHeavyHitters.increment
  cases hsk : s.sketch with
  | none =>
    cases hlk : s.counters.lookup w with
    | some _ => intro sk hsk'; simp at hsk'
    | none =>
      by_cases hlen : s.counters.length < s.capacity
      · intro sk hsk'; simp [hlen] at hsk'
      · simp only [hlen, if_false]
        cases hmin : minByCount (fun c => c.count) s.counters with
        | none => intro sk hsk'; simp at hsk'
        | some p => obtain ⟨k, m⟩ := p; intro sk hsk'; simp at hsk'
  | some sk0 =>
    have hstep : ∀ sk, some (sk0.increment w 1) = some sk →
        ∀ row ∈ sk.rows, ∀ c ∈ row, c ≤ u64Max := by
      intro sk hsk' row hrow
      cases hsk'
      exact sketch_increment_cells_le sk0 w 1 (h sk0 hsk) row hrow
    cases hlk : s.counters.lookup w with
    | some _ => simpa using hstep
    | none =>
      by_cases hlen : s.counters.length < s.capacity
      · simpa [hlen] using hstep
      · simp only [hlen, if_false]
        cases hmin : minByCount (fun c => c.count) s.counters with
        | none => simpa using hstep
        | some p => obtain ⟨k, m⟩ := p; simpa using hstep

/-! ## Rate-bucket counts are bounded by the number of processed messages -/

/-- `trimFront` only drops elements. -/
theorem trimFront_subset (maxLen : Nat) :
    ∀ (l : List (Int × Nat)), ∀ x ∈ trimFront maxLen l, x ∈ l := by
  intro l
  induction l using trimFront.induct maxLen with
  | case1 l hlen ih =>
    intro x hx
    rw [trimFront, dif_pos hlen] at hx
    exact List.mem_of_mem_tail (ih x hx)
  | case2 l hlen =>
    intro x hx
    rwa [trimFront, dif_neg hlen] at hx

/-- One `update_rate_bucket` call raises the bucket-count bound by 1. -/
theorem updateRateBucket_counts_le (s : StatisticsAggregator) (t : Int) (k : Nat)
    (h : ∀ c ∈ bucketCounts s, c ≤ k) :
    ∀ c ∈ bucketCounts (s.updateRateBucket t), c ≤ k + 1 := by
  have hrd : ∀ c ∈ s.rateData.map (fun b => b.2), c ≤ k := by
    intro c hc
    exact h c (by unfold bucketCounts; exact List.mem_append.mpr (Or.inl hc))
  unfold StatisticsAggregator.updateRateBucket
  cases hb : s.currentBucket with
  | none =>
    intro c hc
    unfold bucketCounts at hc
    dsimp only at hc
    rcases List.mem_append.mp hc with hc | hc
    · exact Nat.le_succ_of_le (hrd c hc)
    · simp at hc
      omega
  | some b =>
    obtain ⟨start, count⟩ := b
    have hcount : count ≤ k := by
      refine h count ?_
      unfold bucketCounts
      rw [hb]
      simp
    dsimp only
    by_cases hs : start = s.getBucketStart t
    · rw [if_pos hs]
      intro c hc
      unfold bucketCounts at hc
      dsimp only at hc
      rcases List.mem_append.mp hc with hc | hc
      · exact Nat.le_succ_of_le (hrd c hc)
      · simp at hc
        have := wrapAdd_le count 1
        omega
    · rw [if_neg hs]
      intro c hc
      unfold bucketCounts at hc
      dsimp only at hc
      rcases List.mem_append.mp hc with hc | hc
      · simp only [List.mem_map] at hc
        obtain ⟨a, ha, hac⟩ := hc
        have ha2 : a ∈ s.rateData ++ [(start, count)] := by
          by_cases htrim : (s.rateData ++ [(start, count)]).length > s.maxRatePoints
          · rw [if_pos htrim] at ha
            exact trimFront_subset s.maxRatePoints _ a ha
          · rwa [if_neg htrim] at ha
        rcases List.mem_append.mp ha2 with ha2 | ha2
        · refine Nat.le_succ_of_le ?_
          refine hac ▸ hrd a.2 ?_
          exact List.mem_map.mpr ⟨a, ha2, rfl⟩
        · simp at ha2
          subst ha2
          simp at hac
          omega
      · simp at hc
        omega

/-- `wordStep` acts on the word table as `wordHhStep`. -/
theorem wordStep_wordHh (s : StatisticsAggregator) (w : List Char) :
    (wordStep s w).wordHh = wordHhStep s.wordHh w := by
  unfold wordStep wordHhStep
  by_cases hw : utf8Len (lowerToken w) < 2 ∨ lowerToken w ∈ stopWords <;> simp [hw]

/-- `process_words` acts on the word table as a fold of `wordHhStep` over the
tokens. -/
theorem processWords_wordHh (content : String) :
    ∀ (s : StatisticsAggregator),
      (s.processWords content).wordHh = (rawTokens content).foldl wordHhStep s.wordHh := by
  unfold StatisticsAggregator.processWords
  generalize rawTokens content = toks
  induction toks with
  | nil => intro s; rfl
  | cons w rest ih =>
    intro s
    simp only [List.foldl_cons]
    rw [ih (wordStep s w), wordStep_wordHh]

/-- `wordHhStep` keeps word counts and sketch cells bounded. -/
theorem wordHhStep_inv (h : WordHeavyHitters) (w : List Char)
    (h1 : ∀ e ∈ h.counters, e.2.count ≤ u64Max)
    (h2 : ∀ sk, h.sketch = some sk → ∀ row ∈ sk.rows, ∀ c ∈ row, c ≤ u64Max) :
    (∀ e ∈ (wordHhStep h w).counters, e.2.count ≤ u64Max) ∧
    (∀ sk, (wordHhStep h w).sketch = some sk →
      ∀ row ∈ sk.rows, ∀ c ∈ row, c ≤ u64Max) := by
  unfold wordHhStep
  by_cases hw : (utf8Len (lowerToken w) < 2 ∨ stopWords.contains (lowerToken w))
  · rw [if_pos hw]
    exact ⟨h1, h2⟩
  · rw [if_neg hw]
    exact ⟨word_increment_counts_le h (lowerToken w) h1,
      word_increment_sketch_le h (lowerToken w) h2⟩

/-- Folding `wordHhStep` keeps word counts and sketch cells bounded. -/
theorem foldWordHh_inv (toks : List (List Char)) :
    ∀ (h : WordHeavyHitters),
      (∀ e ∈ h.counters, e.2.count ≤ u64Max) →
      (∀ sk, h.sketch = some sk → ∀ row ∈ sk.rows, ∀ c ∈ row, c ≤ u64Max) →
      (∀ e ∈ (toks.foldl wordHhStep h).counters, e.2.count ≤ u64Max) ∧
      (∀ sk, (toks.foldl wordHhStep h).sketch = some sk →
        ∀ row ∈ sk.rows, ∀ c ∈ row, c ≤ u64Max) := by
  induction toks with
  | nil => intro h h1 h2; exact ⟨h1, h2⟩
  | cons w rest ih =>
    intro h h1 h2
    simp only [List.foldl_cons]
    obtain ⟨g1, g2⟩ := wordHhStep_inv h w h1 h2
    exact ih (wordHhStep h w) g1 g2

/-- `bucketCounts` only depends on `rate_data` and `current_bucket`. -/
theorem bucketCounts_congr (s1 s2 : StatisticsAggregator)
    (h1 : s1.rateData = s2.rateData) (h2 : s1.currentBucket = s2.currentBucket) :
    bucketCounts s1 = bucketCounts s2 := by
  unfold bucketCounts
  rw [h1, h2]

/-- `record_message` is `update_rate_bucket` applied to an intermediate
aggregator whose heavy-hitter tables are updated and whose rate fields are
untouched. -/
theorem recordMessage_decomp (s : StatisticsAggregator) (u un content : String) (g : Bool)
    (t : Int) :
    ∃ s5 : StatisticsAggregator,
      s.recordMessage u un content g t = s5.updateRateBucket t ∧
      s5.talkerHh = s.talkerHh.increment u un ∧
      s5.wordHh = (if g = false ∧ content ≠ "" then
          (rawTokens content).foldl wordHhStep s.wordHh else s.wordHh) ∧
      s5.rateData = s.rateData ∧
      s5.currentBucket = s.currentBucket ∧
      s5.bucketDurationSecs = s.bucketDurationSecs ∧
      s5.maxRatePoints = s.maxRatePoints := by
  unfold StatisticsAggregator.recordMessage
  refine ⟨_, rfl, ?_, ?_, ?_, ?_, ?_, ?_⟩ <;>
    by_cases hst : s.startTime.isNone <;>
      by_cases hg : g <;>
        by_cases hcn : content ≠ "" <;>
          simp [hst, hg, hcn, processWords_fields, processWords_wordHh]

/-- One `record_message` call keeps every heavy-hitter count and sketch cell
at most `u64::MAX` and raises the bucket-count bound by one. -/
theorem recordMessage_inv (s : StatisticsAggregator) (u un content : String) (g : Bool)
    (t : Int) (k : Nat)
    (h1 : ∀ e ∈ s.talkerHh.counters, e.2.count ≤ u64Max)
    (h2 : ∀ e ∈ s.wordHh.counters, e.2.count ≤ u64Max)
    (h3 : ∀ sk, s.wordHh.sketch = some sk → ∀ row ∈ sk.rows, ∀ c ∈ row, c ≤ u64Max)
    (h4 : ∀ c ∈ bucketCounts s, c ≤ k) :
    (∀ e ∈ (s.recordMessage u un content g t).talkerHh.counters, e.2.count ≤ u64Max) ∧
    (∀ e ∈ (s.recordMessage u un content g t).wordHh.counters, e.2.count ≤ u64Max) ∧
    (∀ sk, (s.recordMessage u un content g t).wordHh.sketch = some sk →
      ∀ row ∈ sk.rows, ∀ c ∈ row, c ≤ u64Max) ∧
    (∀ c ∈ bucketCounts (s.recordMessage u un content g t), c ≤ k + 1) := by
  obtain ⟨s5, heq, htk, hwd, hrd, hcb, _, _⟩ := recordMessage_decomp s u un content g t
  obtain ⟨_, _, _, ftk, fwd, _, _⟩ := updateRateBucket_fields s5 t
  rw [heq]
  have h2' : ∀ e ∈ s5.wordHh.counters, e.2.count ≤ u64Max := by
    rw [hwd]
    by_cases hcase : g = false ∧ content ≠ ""
    · rw [if_pos hcase]
      exact (foldWordHh_inv (rawTokens content) s.wordHh h2 h3).1
    · rw [if_neg hcase]
      exact h2
  have h3' : ∀ sk, s5.wordHh.sketch = some sk →
      ∀ row ∈ sk.rows, ∀ c ∈ row, c ≤ u64Max := by
    rw [hwd]
    by_cases hcase : g = false ∧ content ≠ ""
    · rw [if_pos hcase]
      exact (foldWordHh_inv (rawTokens content) s.wordHh h2 h3).2
    · rw [if_neg hcase]
      exact h3
  refine ⟨?_, ?_, ?_, ?_⟩
  · rw [ftk, htk]
    exact talker_increment_counts_le s.talkerHh u un h1
  · rw [fwd]
    exact h2'
  · rw [fwd]
    exact h3'
  · refine updateRateBucket_counts_le s5 t k ?_
    rw [bucketCounts_congr s5 s hrd hcb]
    exact h4

/-- The invariants of `recordMessage_inv`, folded over a call sequence. -/
theorem applyMessages_inv (msgs : List Msg) :
    ∀ (s : StatisticsAggregator) (k : Nat),
      (∀ e ∈ s.talkerHh.counters, e.2.count ≤ u64Max) →
      (∀ e ∈ s.wordHh.counters, e.2.count ≤ u64Max) →
      (∀ sk, s.wordHh.sketch = some sk → ∀ row ∈ sk.rows, ∀ c ∈ row, c ≤ u64Max) →
      (∀ c ∈ bucketCounts s, c ≤ k) →
      (∀ e ∈ (applyMessages s msgs).talkerHh.counters, e.2.count ≤ u64Max) ∧
      (∀ e ∈ (applyMessages s msgs).wordHh.counters, e.2.count ≤ u64Max) ∧
      (∀ sk, (applyMessages s msgs).wordHh.sketch = some sk →
        ∀ row ∈ sk.rows, ∀ c ∈ row, c ≤ u64Max) ∧
      (∀ c ∈ bucketCounts (applyMessages s msgs), c ≤ k + msgs.length) := by
  induction msgs with
  | nil => intro s k h1 h2 h3 h4; exact ⟨h1, h2, h3, by simpa using h4⟩
  | cons m rest ih =>
    intro s k h1 h2 h3 h4
    obtain ⟨g1, g2, g3, g4⟩ :=
      recordMessage_inv s m.userId m.username m.content m.isGift m.timestamp k h1 h2 h3 h4
    have step : applyMessages s (m :: rest) =
        applyMessages (s.recordMessage m.userId m.username m.content m.isGift m.timestamp)
          rest := by
      simp [applyMessages]
    rw [step]
    obtain ⟨r1, r2, r3, r4⟩ := ih _ (k + 1) g1 g2 g3 g4
    refine ⟨r1, r2, r3, ?_⟩
    intro c hc
    have := r4 c hc
    simp only [List.length_cons]
    omega

/-! ## Claim C3: Space-Saving eviction -/

/-- **C3** (confirmed).  When `increment` is called on a full heavy-hitters
table (size = capacity ≥ 1) with an untracked key, the first entry with the
globally minimal count `m` (in iteration order) is evicted and the new key
is appended with count `m.saturating_add(1)` and error `m`; for the word
variant the sketch is first incremented and, when attached, the inserted
count is `max(m.saturating_add(1), sketch.estimate(key))` on the updated
sketch.  The table size is unchanged. -/
theorem claim3_eviction (t : TalkerHeavyHitters) (u un : String)
    (htFull : t.counters.length = t.capacity) (htCap : 0 < t.capacity)
    (htAbs : t.counters.lookup u = none)
    (w : WordHeavyHitters) (wd : String)
    (hwFull : w.counters.length = w.capacity) (hwCap : 0 < w.capacity)
    (hwAbs : w.counters.lookup wd = none) :
    (∃ k m,
      minByCount (fun c => c.count) t.counters = some (k, m) ∧
      (∃ b, (k, b) ∈ t.counters ∧ b.count = m) ∧
      (∀ e ∈ t.counters, m ≤ e.2.count) ∧
      (t.increment u un).counters =
        t.counters.eraseP (fun e => e.1 == k) ++ [(u, ⟨un, satAdd m 1, m⟩)] ∧
      (t.increment u un).counters.length = t.counters.length) ∧
    (∃ k m,
      minByCount (fun c => c.count) w.counters = some (k, m) ∧
      (∃ b, (k, b) ∈ w.counters ∧ b.count = m) ∧
      (∀ e ∈ w.counters, m ≤ e.2.count) ∧
      (w.increment wd).sketch = w.sketch.map (fun sk => sk.increment wd 1) ∧
      (w.increment wd).counters =
        w.counters.eraseP (fun e => e.1 == k) ++
          [(wd, ⟨max (satAdd m 1)
              (((w.sketch.map (fun sk => sk.increment wd 1)).map
                (fun sk => sk.estimate wd)).getD 0), m⟩)] ∧
      (w.increment wd).counters.length = w.counters.length) := by
  have hnotlt : ¬ t.counters.length < t.capacity := by omega
  have htne : t.counters ≠ [] := by
    intro hnil
    rw [hnil] at htFull
    simp at htFull
    omega
  have hwnotlt : ¬ w.counters.length < w.capacity := by omega
  have hwne : w.counters ≠ [] := by
    intro hnil
    rw [hnil] at hwFull
    simp at hwFull
    omega
  constructor
  · obtain ⟨p, hp⟩ := Option.isSome_iff_exists.mp (minByCount_isSome _ t.counters htne)
    obtain ⟨k, m⟩ := p
    obtain ⟨⟨b, hb, hbc⟩, hmin⟩ := minByCount_spec _ _ _ _ hp
    refine ⟨k, m, hp, ⟨b, hb, hbc⟩, hmin, ?_, ?_⟩
    · unfold TalkerHeavyHitters.increment
      rw [htAbs]
      simp only [hnotlt, if_false, hp]
    · unfold TalkerHeavyHitters.increment
      rw [htAbs]
      simp only [hnotlt, if_false, hp]
      exact length_eraseP_append t.counters k b ⟨b, hb⟩ _
  · obtain ⟨p, hp⟩ := Option.isSome_iff_exists.mp (minByCount_isSome _ w.counters hwne)
    obtain ⟨k, m⟩ := p
    obtain ⟨⟨b, hb, hbc⟩, hmin⟩ := minByCount_spec _ _ _ _ hp
    refine ⟨k, m, hp, ⟨b, hb, hbc⟩, hmin, ?_, ?_, ?_⟩
    · unfold WordHeavyHitters.increment
      rw [hwAbs]
      simp only [hwnotlt, if_false, hp]
      cases w.sketch <;> rfl
    · unfold WordHeavyHitters.increment
      rw [hwAbs]
      simp only [hwnotlt, if_false, hp]
      cases w.sketch <;> rfl
    · unfold WordHeavyHitters.increment
      rw [hwAbs]
      simp only [hwnotlt, if_false, hp]
      cases w.sketch <;>
        exact length_eraseP_append w.counters k b ⟨b, hb⟩ _
  
/-- Witness for C3: a full capacity-1 talker table and a full capacity-1
word table (with sketch), each hit with a fresh key. -/
theorem claim3_eviction_witness :
    ((TalkerHeavyHitters.new 1).increment "aa" "A").counters.length =
        ((TalkerHeavyHitters.new 1).increment "aa" "A").capacity ∧
    (0 < ((TalkerHeavyHitters.new 1).increment "aa" "A").capacity) ∧
    ((((TalkerHeavyHitters.new 1).increment "aa" "A").counters.lookup "bb") = none) ∧
    ((∃ k m,
      minByCount (fun c => c.count)
        ((TalkerHeavyHitters.new 1).increment "aa" "A").counters = some (k, m) ∧
      (∃ b, (k, b) ∈ ((TalkerHeavyHitters.new 1).increment "aa" "A").counters ∧
        b.count = m) ∧
      (∀ e ∈ ((TalkerHeavyHitters.new 1).increment "aa" "A").counters, m ≤ e.2.count) ∧
      (((TalkerHeavyHitters.new 1).increment "aa" "A").increment "bb" "B").counters =
        ((TalkerHeavyHitters.new 1).increment "aa" "A").counters.eraseP
            (fun e => e.1 == k) ++ [("bb", ⟨"B", satAdd m 1, m⟩)] ∧
      (((TalkerHeavyHitters.new 1).increment "aa" "A").increment "bb" "B").counters.length =
        ((TalkerHeavyHitters.new 1).increment "aa" "A").counters.length) ∧
    (∃ k m,
      minByCount (fun c => c.count)
        ((WordHeavyHitters.new 1 (some (CountMinSketch.new 64 2))).increment "aa").counters =
          some (k, m) ∧
      (∃ b, (k, b) ∈
        ((WordHeavyHitters.new 1 (some (CountMinSketch.new 64 2))).increment "aa").counters ∧
        b.count = m) ∧
      (∀ e ∈ ((WordHeavyHitters.new 1 (some (CountMinSketch.new 64 2))).increment
        "aa").counters, m ≤ e.2.count) ∧
      (((WordHeavyHitters.new 1 (some (CountMinSketch.new 64 2))).increment
          "aa").increment "bb").sketch =
        ((WordHeavyHitters.new 1 (some (CountMinSketch.new 64 2))).increment
          "aa").sketch.map (fun sk => sk.increment "bb" 1) ∧
      (((WordHeavyHitters.new 1 (some (CountMinSketch.new 64 2))).increment
          "aa").increment "bb").counters =
        ((WordHeavyHitters.new 1 (some (CountMinSketch.new 64 2))).increment
            "aa").counters.eraseP (fun e => e.1 == k) ++
          [("bb", ⟨max (satAdd m 1)
              (((((WordHeavyHitters.new 1 (some (CountMinSketch.new 64 2))).increment
                  "aa").sketch.map (fun sk => sk.increment "bb" 1)).map
                (fun sk => sk.estimate "bb")).getD 0), m⟩)] ∧
      (((WordHeavyHitters.new 1 (some (CountMinSketch.new 64 2))).increment
          "aa").increment "bb").counters.length =
        ((WordHeavyHitters.new 1 (some (CountMinSketch.new 64 2))).increment
          "aa").counters.length)) :=
  ⟨by decide, by decide, by decide,
    claim3_eviction ((TalkerHeavyHitters.new 1).increment "aa" "A") "bb" "B"
      (by decide) (by decide) (by decide)
      ((WordHeavyHitters.new 1 (some (CountMinSketch.new 64 2))).increment "aa") "bb"
      (by decide) (by decide) (by decide)⟩

/-- **C2** (corrected).  For every sequence of fewer than `2 ^ 64`
`record_message` calls on a fresh `StatisticsAggregator`, `total_count`
equals `chat_count + gift_count`, `chat_count` is exactly the number of
calls with `is_gift = false` and `gift_count` exactly the number with
`is_gift = true`.  (The counters are plain `u64` additions, so the claim's
"every finite sequence" fails at `2 ^ 64` calls, where the counters wrap
— see the counterexample.) -/
theorem claim2_exact_counts (mt mw bd : Nat) (msgs : List Msg) (h : msgs.length < U64) :
    (applyMessages (StatisticsAggregator.withConfig mt mw bd) msgs).totalCount =
      (applyMessages (StatisticsAggregator.withConfig mt mw bd) msgs).chatCount +
        (applyMessages (StatisticsAggregator.withConfig mt mw bd) msgs).giftCount ∧
    (applyMessages (StatisticsAggregator.withConfig mt mw bd) msgs).chatCount =
      msgs.countP (fun m => !m.isGift) ∧
    (applyMessages (StatisticsAggregator.withConfig mt mw bd) msgs).giftCount =
      msgs.countP (fun m => m.isGift) := by
  have e0 : (StatisticsAggregator.withConfig mt mw bd).totalCount = 0 := rfl
  have e1 : (StatisticsAggregator.withConfig mt mw bd).chatCount = 0 := rfl
  have e2 : (StatisticsAggregator.withConfig mt mw bd).giftCount = 0 := rfl
  obtain ⟨ht, hc, hg⟩ := applyMessages_counts msgs (StatisticsAggregator.withConfig mt mw bd)
    (by rw [e0]; exact U64_pos) (by rw [e1]; exact U64_pos) (by rw [e2]; exact U64_pos)
  rw [e0] at ht
  rw [e1] at hc
  rw [e2] at hg
  have hcnt := countP_not_add msgs
  have hcle : msgs.countP (fun m => !m.isGift) < U64 :=
    lt_of_le_of_lt (List.countP_le_length _) h
  have hgle : msgs.countP (fun m => m.isGift) < U64 :=
    lt_of_le_of_lt (List.countP_le_length _) h
  refine ⟨?_, ?_, ?_⟩
  · rw [ht, hc, hg]
    simp only [Nat.zero_add]
    rw [Nat.mod_eq_of_lt h, Nat.mod_eq_of_lt hcle, Nat.mod_eq_of_lt hgle]
    omega
  · rw [hc]
    simp only [Nat.zero_add]
    exact Nat.mod_eq_of_lt hcle
  · rw [hg]
    simp only [Nat.zero_add]
    exact Nat.mod_eq_of_lt hgle

/-- Witness for C2: a concrete two-message run (one chat, one gift). -/
theorem claim2_exact_counts_witness :
    (applyMessages (StatisticsAggregator.withConfig 10 50 10)
        [Msg.mk "u1" "U1" "hi" false 0, Msg.mk "u2" "U2" "g" true 0]).totalCount =
      (applyMessages (StatisticsAggregator.withConfig 10 50 10)
        [Msg.mk "u1" "U1" "hi" false 0, Msg.mk "u2" "U2" "g" true 0]).chatCount +
        (applyMessages (StatisticsAggregator.withConfig 10 50 10)
          [Msg.mk "u1" "U1" "hi" false 0, Msg.mk "u2" "U2" "g" true 0]).giftCount ∧
    (applyMessages (StatisticsAggregator.withConfig 10 50 10)
        [Msg.mk "u1" "U1" "hi" false 0, Msg.mk "u2" "U2" "g" true 0]).chatCount =
      ([Msg.mk "u1" "U1" "hi" false 0, Msg.mk "u2" "U2" "g" true 0].countP
        (fun m => !m.isGift)) ∧
    (applyMessages (StatisticsAggregator.withConfig 10 50 10)
        [Msg.mk "u1" "U1" "hi" false 0, Msg.mk "u2" "U2" "g" true 0]).giftCount =
      ([Msg.mk "u1" "U1" "hi" false 0, Msg.mk "u2" "U2" "g" true 0].countP
        (fun m => m.isGift)) :=
  claim2_exact_counts 10 50 10
    [Msg.mk "u1" "U1" "hi" false 0, Msg.mk "u2" "U2" "g" true 0] (by decide)

/-- Counterexample for C2 as stated: after exactly `2 ^ 64` non-gift calls
the `u64` chat counter has wrapped to 0, so it does **not** equal the number
of calls with `is_gift = false` (which is `2 ^ 64`). -/
theorem claim2_counterexample :
    (applyMessages (StatisticsAggregator.withConfig 10 50 10)
        (List.replicate U64 (Msg.mk "u" "n" "" false 0))).chatCount = 0 ∧
    (List.replicate U64 (Msg.mk "u" "n" "" false 0)).countP (fun m => !m.isGift) = U64 ∧
    (0 : Nat) ≠ U64 := by
  have e1 : (StatisticsAggregator.withConfig 10 50 10).chatCount = 0 := rfl
  obtain ⟨_, hc, _⟩ := applyMessages_counts
    (List.replicate U64 (Msg.mk "u" "n" "" false 0))
    (StatisticsAggregator.withConfig 10 50 10)
    (by rw [(rfl : (StatisticsAggregator.withConfig 10 50 10).totalCount = 0)]; exact U64_pos)
    (by rw [e1]; exact U64_pos)
    (by rw [(rfl : (StatisticsAggregator.withConfig 10 50 10).giftCount = 0)]; exact U64_pos)
  refine ⟨?_, ?_, by decide⟩
  · rw [hc, e1]
    simp [List.countP_replicate]
  · simp [List.countP_replicate]

/-- **C8** (corrected).  Heavy-hitter counts and sketch cells use saturating
arithmetic and never exceed `u64::MAX`, and rate-bucket counts never exceed
the number of processed messages; but `total_count`, `chat_count` and
`gift_count` are plain (wrapping) `u64` additions — they equal the exact
tallies only modulo `2 ^ 64` (see the counterexample for the wraparound). -/
theorem claim8_saturation (mt mw bd : Nat) (msgs : List Msg) :
    ((applyMessages (StatisticsAggregator.withConfig mt mw bd) msgs).totalCount =
        msgs.length % U64 ∧
      (applyMessages (StatisticsAggregator.withConfig mt mw bd) msgs).chatCount =
        msgs.countP (fun m => !m.isGift) % U64 ∧
      (applyMessages (StatisticsAggregator.withConfig mt mw bd) msgs).giftCount =
        msgs.countP (fun m => m.isGift) % U64) ∧
    (∀ e ∈ (applyMessages (StatisticsAggregator.withConfig mt mw bd) msgs).talkerHh.counters,
      e.2.count ≤ u64Max) ∧
    (∀ e ∈ (applyMessages (StatisticsAggregator.withConfig mt mw bd) msgs).wordHh.counters,
      e.2.count ≤ u64Max) ∧
    (∀ sk, (applyMessages (StatisticsAggregator.withConfig mt mw bd) msgs).wordHh.sketch =
        some sk → ∀ row ∈ sk.rows, ∀ c ∈ row, c ≤ u64Max) ∧
    (∀ c ∈ bucketCounts (applyMessages (StatisticsAggregator.withConfig mt mw bd) msgs),
      c ≤ msgs.length) := by
  have e0 : (StatisticsAggregator.withConfig mt mw bd).totalCount = 0 := rfl
  have e1 : (StatisticsAggregator.withConfig mt mw bd).chatCount = 0 := rfl
  have e2 : (StatisticsAggregator.withConfig mt mw bd).giftCount = 0 := rfl
  obtain ⟨ht, hc, hg⟩ := applyMessages_counts msgs (StatisticsAggregator.withConfig mt mw bd)
    (by rw [e0]; exact U64_pos) (by rw [e1]; exact U64_pos) (by rw [e2]; exact U64_pos)
  have hsk0 : ∀ sk, (StatisticsAggregator.withConfig mt mw bd).wordHh.sketch = some sk →
      ∀ row ∈ sk.rows, ∀ c ∈ row, c ≤ u64Max := by
    intro sk hsk row hrow c hcell
    have hsk' : sk = CountMinSketch.new
        (max (Nat.nextPowerOfTwo (satMul (satMul (max mw 1) 4) 32)) 256) 4 := by
      have : (StatisticsAggregator.withConfig mt mw bd).wordHh.sketch =
          some (CountMinSketch.new
            (max (Nat.nextPowerOfTwo (satMul (satMul (max mw 1) 4) 32)) 256) 4) := rfl
      rw [this] at hsk
      exact (Option.some.injEq _ _ ▸ hsk).symm
    subst hsk'
    simp only [CountMinSketch.new] at hrow
    rw [List.eq_of_mem_replicate hrow] at hcell
    rw [List.eq_of_mem_replicate hcell]
    exact Nat.zero_le _
  obtain ⟨g1, g2, g3, g4⟩ := applyMessages_inv msgs (StatisticsAggregator.withConfig mt mw bd) 0
    (by intro e he; simp [StatisticsAggregator.withConfig, TalkerHeavyHitters.new] at he)
    (by intro e he; simp [StatisticsAggregator.withConfig, WordHeavyHitters.new] at he)
    hsk0
    (by intro c hcb; simp [bucketCounts, StatisticsAggregator.withConfig] at hcb)
  rw [e0] at ht
  rw [e1] at hc
  rw [e2] at hg
  refine ⟨⟨by simpa using ht, by simpa using hc, by simpa using hg⟩, g1, g2, g3, ?_⟩
  intro c hcb
  simpa using g4 c hcb

/-- Witness for C8 at a concrete configuration and call list. -/
theorem claim8_saturation_witness :
    ((applyMessages (StatisticsAggregator.withConfig 10 50 10)
        [Msg.mk "u" "U" "hello" false 3]).totalCount =
        [Msg.mk "u" "U" "hello" false 3].length % U64 ∧
      (applyMessages (StatisticsAggregator.withConfig 10 50 10)
        [Msg.mk "u" "U" "hello" false 3]).chatCount =
        [Msg.mk "u" "U" "hello" false 3].countP (fun m => !m.isGift) % U64 ∧
      (applyMessages (StatisticsAggregator.withConfig 10 50 10)
        [Msg.mk "u" "U" "hello" false 3]).giftCount =
        [Msg.mk "u" "U" "hello" false 3].countP (fun m => m.isGift) % U64) ∧
    (∀ e ∈ (applyMessages (StatisticsAggregator.withConfig 10 50 10)
        [Msg.mk "u" "U" "hello" false 3]).talkerHh.counters, e.2.count ≤ u64Max) ∧
    (∀ e ∈ (applyMessages (StatisticsAggregator.withConfig 10 50 10)
        [Msg.mk "u" "U" "hello" false 3]).wordHh.counters, e.2.count ≤ u64Max) ∧
    (∀ sk, (applyMessages (StatisticsAggregator.withConfig 10 50 10)
        [Msg.mk "u" "U" "hello" false 3]).wordHh.sketch = some sk →
      ∀ row ∈ sk.rows, ∀ c ∈ row, c ≤ u64Max) ∧
    (∀ c ∈ bucketCounts (applyMessages (StatisticsAggregator.withConfig 10 50 10)
        [Msg.mk "u" "U" "hello" false 3]), c ≤ [Msg.mk "u" "U" "hello" false 3].length) :=
  claim8_saturation 10 50 10 [Msg.mk "u" "U" "hello" false 3]

/-- Counterexample for C8 as stated: `total_count` is **not** saturating —
after `2 ^ 64` calls it has wrapped around to 0 rather than holding at
`u64::MAX`. -/
theorem claim8_counterexample :
    (applyMessages (StatisticsAggregator.withConfig 10 50 10)
        (List.replicate U64 (Msg.mk "u" "n" "" false 0))).totalCount = 0 ∧
    (0 : Nat) ≠ min U64 u64Max := by
  have e0 : (StatisticsAggregator.withConfig 10 50 10).totalCount = 0 := rfl
  obtain ⟨ht, _, _⟩ := applyMessages_counts
    (List.replicate U64 (Msg.mk "u" "n" "" false 0))
    (StatisticsAggregator.withConfig 10 50 10)
    (by rw [e0]; exact U64_pos)
    (by rw [(rfl : (StatisticsAggregator.withConfig 10 50 10).chatCount = 0)]; exact U64_pos)
    (by rw [(rfl : (StatisticsAggregator.withConfig 10 50 10).giftCount = 0)]; exact U64_pos)
  refine ⟨?_, by decide⟩
  rw [ht, e0]
  simp

/-! ## Claim C6: rate-bucket time ordering -/

/-- Truncating division is monotone in the numerator (positive divisor). -/
theorem tdiv_mono {a b d : Int} (hd : 0 < d) (hab : a ≤ b) : a.tdiv d ≤ b.tdiv d := by
  by_cases ha : 0 ≤ a
  · have hb : 0 ≤ b := le_trans ha hab
    rw [Int.tdiv_eq_ediv ha (le_of_lt hd), Int.tdiv_eq_ediv hb (le_of_lt hd)]
    exact Int.ediv_le_ediv hd hab
  · by_cases hb : 0 ≤ b
    · have h1 : a.tdiv d ≤ 0 := by
        have e1 : a.tdiv d = -((-a).tdiv d) := by rw [← Int.neg_tdiv, neg_neg]
        have h2 := Int.tdiv_nonneg (by omega : (0 : Int) ≤ -a) (le_of_lt hd)
        omega
      have h2 : 0 ≤ b.tdiv d := Int.tdiv_nonneg hb (le_of_lt hd)
      omega
    · have hmono : (-b).tdiv d ≤ (-a).tdiv d := by
        rw [Int.tdiv_eq_ediv (by omega) (le_of_lt hd),
          Int.tdiv_eq_ediv (by omega) (le_of_lt hd)]
        exact Int.ediv_le_ediv hd (by omega)
      have e1 : a.tdiv d = -((-a).tdiv d) := by rw [← Int.neg_tdiv, neg_neg]
      have e2 : b.tdiv d = -((-b).tdiv d) := by rw [← Int.neg_tdiv, neg_neg]
      omega

/-- `(t / d) * d` lies between 0 and `t` (towards zero). -/
theorem tdiv_mul_bounds {t d : Int} (hd : 0 < d) :
    (0 ≤ t → 0 ≤ t.tdiv d * d ∧ t.tdiv d * d ≤ t) ∧
    (t < 0 → t ≤ t.tdiv d * d ∧ t.tdiv d * d ≤ 0) := by
  constructor
  · intro ht
    refine ⟨mul_nonneg (Int.tdiv_nonneg ht (le_of_lt hd)) (le_of_lt hd), ?_⟩
    rw [Int.tdiv_eq_ediv ht (le_of_lt hd)]
    exact Int.ediv_mul_le t (by omega)
  · intro ht
    have e1 : t.tdiv d = -((-t).tdiv d) := by rw [← Int.neg_tdiv, neg_neg]
    have h1 : 0 ≤ (-t).tdiv d * d :=
      mul_nonneg (Int.tdiv_nonneg (by omega) (le_of_lt hd)) (le_of_lt hd)
    have h2 : (-t).tdiv d * d ≤ -t := by
      rw [Int.tdiv_eq_ediv (by omega) (le_of_lt hd)]
      exact Int.ediv_mul_le (-t) (by omega)
    constructor
    · rw [e1, neg_mul]
      omega
    · rw [e1, neg_mul]
      omega

/-- `as i64` is the identity below `2 ^ 63`. -/
theorem i64OfU64_of_lt {n : Nat} (h : n < 2 ^ 63) : i64OfU64 n = (n : Int) := by
  unfold i64OfU64
  have h1 : n % U64 = n := Nat.mod_eq_of_lt (by unfold U64; omega)
  simp only [h1]
  rw [if_pos h]

/-- With a positive sub-`2^63` duration and an in-range timestamp, the
`from_timestamp` fallback never fires: the bucket start is the aligned
`(t / d) * d`. -/
theorem getBucketStart_eq (s : StatisticsAggregator) (t : Int)
    (hd1 : 1 ≤ s.bucketDurationSecs) (hd2 : s.bucketDurationSecs < 2 ^ 63)
    (hr1 : chronoMinTs ≤ t) (hr2 : t ≤ chronoMaxTs) :
    s.getBucketStart t =
      t.tdiv (s.bucketDurationSecs : Int) * (s.bucketDurationSecs : Int) := by
  unfold StatisticsAggregator.getBucketStart
  rw [i64OfU64_of_lt hd2]
  have hd : (0 : Int) < (s.bucketDurationSecs : Int) := by exact_mod_cast hd1
  have hbounds := tdiv_mul_bounds (t := t) hd
  have hmin : chronoMinTs ≤ (0 : Int) := by unfold chronoMinTs; omega
  have hmax : (0 : Int) ≤ chronoMaxTs := by unfold chronoMaxTs; omega
  by_cases ht : 0 ≤ t
  · obtain ⟨hb1, hb2⟩ := hbounds.1 ht
    rw [if_pos ⟨by omega, by omega⟩]
  · obtain ⟨hb1, hb2⟩ := hbounds.2 (by omega)
    rw [if_pos ⟨by omega, by omega⟩]

/-- `get_bucket_start` is monotone over in-range timestamps. -/
theorem getBucketStart_mono (s : StatisticsAggregator) (t1 t2 : Int)
    (hd1 : 1 ≤ s.bucketDurationSecs) (hd2 : s.bucketDurationSecs < 2 ^ 63)
    (h1a : chronoMinTs ≤ t1) (h1b : t1 ≤ chronoMaxTs)
    (h2a : chronoMinTs ≤ t2) (h2b : t2 ≤ chronoMaxTs)
    (h12 : t1 ≤ t2) : s.getBucketStart t1 ≤ s.getBucketStart t2 := by
  rw [getBucketStart_eq s t1 hd1 hd2 h1a h1b, getBucketStart_eq s t2 hd1 hd2 h2a h2b]
  have hd : (0 : Int) < (s.bucketDurationSecs : Int) := by exact_mod_cast hd1
  exact mul_le_mul_of_nonneg_right (tdiv_mono hd h12) (le_of_lt hd)

/-- `get_bucket_start` only depends on the bucket duration. -/
theorem getBucketStart_congr (s1 s2 : StatisticsAggregator)
    (h : s1.bucketDurationSecs = s2.bucketDurationSecs) (t : Int) :
    s1.getBucketStart t = s2.getBucketStart t := by
  unfold StatisticsAggregator.getBucketStart
  rw [h]

/-- `trimFront` trims to exactly `min maxLen length` elements. -/
theorem trimFront_length (maxLen : Nat) :
    ∀ (l : List (Int × Nat)), (trimFront maxLen l).length = min maxLen l.length := by
  intro l
  induction l using trimFront.induct maxLen with
  | case1 l hlen ih =>
    rw [trimFront, dif_pos hlen, ih]
    rw [List.length_tail]
    omega
  | case2 l hlen =>
    rw [trimFront, dif_neg hlen]
    omega

/-- `trimFront` preserves any chain on the projected timestamps. -/
theorem trimFront_chain (maxLen : Nat) (R : Int → Int → Prop) :
    ∀ (l : List (Int × Nat)), List.Chain' R (l.map (fun b => b.1)) →
      List.Chain' R ((trimFront maxLen l).map (fun b => b.1)) := by
  intro l
  induction l using trimFront.induct maxLen with
  | case1 l hlen ih =>
    intro h
    rw [trimFront, dif_pos hlen]
    apply ih
    have e : l.tail.map (fun b => b.1) = (l.map (fun b => b.1)).tail := by
      cases l <;> rfl
    rw [e]
    exact h.tail
  | case2 l hlen =>
    intro h
    rwa [trimFront, dif_neg hlen]

/-- The rate-bucket invariant is preserved by one `update_rate_bucket` call
whose timestamp's bucket is at least the open bucket's start; afterwards the
open bucket sits exactly at the call's bucket start. -/
theorem updateRateBucket_inv (s : StatisticsAggregator) (t : Int)
    (hinv : RateInv s)
    (hfresh : ∀ b ∈ s.currentBucket, b.1 ≤ s.getBucketStart t) :
    RateInv (s.updateRateBucket t) ∧
    (∀ b ∈ (s.updateRateBucket t).currentBucket, b.1 = s.getBucketStart t) := by
  obtain ⟨hchain, hlen, hcur, hnone⟩ := hinv
  unfold StatisticsAggregator.updateRateBucket
  cases hb : s.currentBucket with
  | none =>
    have hrd : s.rateData = [] := hnone hb
    dsimp only
    refine ⟨⟨?_, ?_, ?_, ?_⟩, ?_⟩
    · simp [hrd]
    · simp [hrd]
    · intro b _ x hx
      rw [hrd] at hx
      cases hx
    · intro h
      exact hrd
    · intro b hbm
      simp at hbm
      rw [← hbm]
  | some b0 =>
    obtain ⟨start, count⟩ := b0
    have hstart : start ≤ s.getBucketStart t := by
      have := hfresh (start, count) (by rw [hb]; rfl)
      simpa using this
    have hcur' : ∀ x ∈ s.rateData, x.1 < start := by
      intro x hx
      have := hcur (start, count) (by rw [hb]; rfl) x hx
      simpa using this
    dsimp only
    by_cases hs : start = s.getBucketStart t
    · rw [if_pos hs]
      refine ⟨⟨hchain, hlen, ?_, ?_⟩, ?_⟩
      · intro b hbm x hx
        simp at hbm
        rw [← hbm]
        exact hcur' x hx
      · intro h
        simp at h
      · intro b hbm
        simp at hbm
        rw [← hbm]
        exact hs
    · rw [if_neg hs]
      have hlt : start < s.getBucketStart t := lt_of_le_of_ne hstart hs
      have hpushchain : List.Chain' (fun a b => a < b)
          ((s.rateData ++ [(start, count)]).map (fun b => b.1)) := by
        rw [List.map_append]
        rw [List.chain'_append]
        refine ⟨hchain, by simp, ?_⟩
        intro x hx y hy
        simp at hy
        subst hy
        obtain ⟨hne, hxeq⟩ := List.mem_getLast?_eq_getLast hx
        have hxmem : x ∈ s.rateData.map (fun b => b.1) := hxeq ▸ List.getLast_mem hne
        obtain ⟨a, ha, hax⟩ := List.mem_map.mp hxmem
        rw [← hax]
        exact hcur' a ha
      refine ⟨⟨?_, ?_, ?_, ?_⟩, ?_⟩
      · by_cases htrim : (s.rateData ++ [(start, count)]).length > s.maxRatePoints
        · rw [if_pos htrim]
          exact trimFront_chain s.maxRatePoints _ _ hpushchain
        · rw [if_neg htrim]
          exact hpushchain
      · dsimp only
        by_cases htrim : (s.rateData ++ [(start, count)]).length > s.maxRatePoints
        · rw [if_pos htrim]
          rw [trimFront_length]
          omega
        · rw [if_neg htrim]
          omega
      · intro b hbm x hx
        simp only [Option.mem_def, Option.some.injEq] at hbm
        rw [← hbm]
        have hx' : x ∈ s.rateData ++ [(start, count)] := by
          by_cases htrim : (s.rateData ++ [(start, count)]).length > s.maxRatePoints
          · rw [if_pos htrim] at hx
            exact trimFront_subset _ _ x hx
          · rw [if_neg htrim] at hx
            exact hx
        rcases List.mem_append.mp hx' with hx' | hx'
        · exact lt_trans (hcur' x hx') hlt
        · simp at hx'
          rw [hx']
          exact hlt
      · intro h
        simp at h
      · intro b hbm
        simp at hbm
        rw [← hbm]

/-- `RateInv` only depends on the rate fields. -/
theorem rateInv_congr (s1 s2 : StatisticsAggregator)
    (h1 : s1.rateData = s2.rateData) (h2 : s1.currentBucket = s2.currentBucket)
    (h3 : s1.maxRatePoints = s2.maxRatePoints) : RateInv s1 ↔ RateInv s2 := by
  unfold RateInv
  rw [h1, h2, h3]

/-- The rate-bucket invariant holds after any monotone, in-range call
sequence, and the open bucket tracks the last bucket start. -/
theorem applyMessages_rateInv (msgs : List Msg) :
    ∀ (s : StatisticsAggregator),
      1 ≤ s.bucketDurationSecs → s.bucketDurationSecs < 2 ^ 63 →
      (∀ m ∈ msgs, chronoMinTs ≤ m.timestamp ∧ m.timestamp ≤ chronoMaxTs) →
      List.Chain' (fun a b => a ≤ b) (msgs.map (fun m => m.timestamp)) →
      RateInv s →
      (∀ b ∈ s.currentBucket, ∀ m0 ∈ msgs.head?, b.1 ≤ s.getBucketStart m0.timestamp) →
      RateInv (applyMessages s msgs) := by
  induction msgs with
  | nil => intro s _ _ _ _ hinv _; exact hinv
  | cons m rest ih =>
    intro s hd1 hd2 hrange hmono hinv hfresh
    obtain ⟨s5, heq, _, _, hrd, hcb, hbds, hmrp⟩ :=
      recordMessage_decomp s m.userId m.username m.content m.isGift m.timestamp
    have hstep : applyMessages s (m :: rest) =
        applyMessages (s.recordMessage m.userId m.username m.content m.isGift m.timestamp)
          rest := by
      simp [applyMessages]
    rw [hstep, heq]
    have hinv5 : RateInv s5 := (rateInv_congr s5 s hrd hcb hmrp).mpr hinv
    have hfresh5 : ∀ b ∈ s5.currentBucket, b.1 ≤ s5.getBucketStart m.timestamp := by
      intro b hbm
      rw [getBucketStart_congr s5 s hbds]
      refine hfresh b ?_ m rfl
      rwa [hcb] at hbm
    obtain ⟨hinv', hcur'⟩ := updateRateBucket_inv s5 m.timestamp hinv5 hfresh5
    obtain ⟨_, _, _, _, _, hmrp', hbds'⟩ := updateRateBucket_fields s5 m.timestamp
    have hmono' : List.Chain' (fun a b => a ≤ b)
        (m.timestamp :: rest.map (fun m => m.timestamp)) := by
      simpa using hmono
    apply ih (s5.updateRateBucket m.timestamp)
    · rw [hbds', hbds]
      exact hd1
    · rw [hbds', hbds]
      exact hd2
    · intro m1 hm1
      exact hrange m1 (List.mem_cons_of_mem _ hm1)
    · exact (List.chain'_cons'.mp hmono').2
    · exact hinv'
    · intro b hbm m1 hm1
      have hb1 : b.1 = s5.getBucketStart m.timestamp := hcur' b hbm
      have hle : m.timestamp ≤ m1.timestamp := by
        have h := (List.chain'_cons'.mp hmono').1
        apply h
        cases rest with
        | nil => cases hm1
        | cons r rs =>
          have hmr : r = m1 := by simpa using hm1
          simp [← hmr]
      have hr0 := hrange m (List.mem_cons_self _ _)
      have hr1 := hrange m1 (List.mem_cons_of_mem _ (List.mem_of_mem_head? hm1))
      rw [getBucketStart_congr (s5.updateRateBucket m.timestamp) s (by rw [hbds', hbds]),
        hb1, getBucketStart_congr s5 s hbds]
      exact getBucketStart_mono s m.timestamp m1.timestamp hd1 hd2
        hr0.1 hr0.2 hr1.1 hr1.2 hle

/-- **C6** (corrected).  For every `record_message` sequence with
**non-decreasing**, chrono-representable timestamps and a positive bucket
duration below `2 ^ 63` seconds, the finalized rate buckets are strictly
time-ordered, their number never exceeds the retention cap, and the open
bucket (when present) has a timestamp at least every finalized bucket's.
With non-monotone timestamps the code violates the ordering (see the
counterexample): `update_rate_bucket` closes buckets on any change of
bucket start, without comparing order. -/
theorem claim6_rate_invariant (mt mw bd : Nat) (msgs : List Msg)
    (hbd1 : 1 ≤ bd) (hbd2 : bd < 2 ^ 63)
    (hrange : ∀ m ∈ msgs, chronoMinTs ≤ m.timestamp ∧ m.timestamp ≤ chronoMaxTs)
    (hmono : List.Chain' (fun a b => a ≤ b) (msgs.map (fun m => m.timestamp))) :
    List.Chain' (fun a b => a < b)
      ((applyMessages (StatisticsAggregator.withConfig mt mw bd) msgs).rateData.map
        (fun b => b.1)) ∧
    (applyMessages (StatisticsAggregator.withConfig mt mw bd) msgs).rateData.length ≤
      (applyMessages (StatisticsAggregator.withConfig mt mw bd) msgs).maxRatePoints ∧
    (∀ b ∈ (applyMessages (StatisticsAggregator.withConfig mt mw bd) msgs).currentBucket,
      ∀ x ∈ (applyMessages (StatisticsAggregator.withConfig mt mw bd) msgs).rateData,
        x.1 ≤ b.1) := by
  have hinv0 : RateInv (StatisticsAggregator.withConfig mt mw bd) := by
    refine ⟨?_, ?_, ?_, ?_⟩
    · exact List.chain'_nil
    · exact Nat.zero_le _
    · intro b hbm
      cases hbm
    · intro _
      rfl
  have h := applyMessages_rateInv msgs (StatisticsAggregator.withConfig mt mw bd)
    hbd1 hbd2 hrange hmono hinv0 (by intro b hbm; cases hbm)
  obtain ⟨hchain, hlen, hcur, _⟩ := h
  exact ⟨hchain, hlen, fun b hbm x hx => le_of_lt (hcur b hbm x hx)⟩

/-- Witness for C6: three in-order messages at t = 0, 5, 15 with 10-second
buckets. -/
theorem claim6_rate_invariant_witness :
    List.Chain' (fun a b => a < b)
      ((applyMessages (StatisticsAggregator.withConfig 10 10 10)
        [Msg.mk "u" "U" "m" true 0, Msg.mk "u" "U" "m" true 5,
         Msg.mk "u" "U" "m" true 15]).rateData.map (fun b => b.1)) ∧
    (applyMessages (StatisticsAggregator.withConfig 10 10 10)
        [Msg.mk "u" "U" "m" true 0, Msg.mk "u" "U" "m" true 5,
         Msg.mk "u" "U" "m" true 15]).rateData.length ≤
      (applyMessages (StatisticsAggregator.withConfig 10 10 10)
        [Msg.mk "u" "U" "m" true 0, Msg.mk "u" "U" "m" true 5,
         Msg.mk "u" "U" "m" true 15]).maxRatePoints ∧
    (∀ b ∈ (applyMessages (StatisticsAggregator.withConfig 10 10 10)
        [Msg.mk "u" "U" "m" true 0, Msg.mk "u" "U" "m" true 5,
         Msg.mk "u" "U" "m" true 15]).currentBucket,
      ∀ x ∈ (applyMessages (StatisticsAggregator.withConfig 10 10 10)
        [Msg.mk "u" "U" "m" true 0, Msg.mk "u" "U" "m" true 5,
         Msg.mk "u" "U" "m" true 15]).rateData, x.1 ≤ b.1) :=
  claim6_rate_invariant 10 10 10
    [Msg.mk "u" "U" "m" true 0, Msg.mk "u" "U" "m" true 5, Msg.mk "u" "U" "m" true 15]
    (by decide) (by decide) (by decide)
    (by
      simp only [List.map_cons, List.map_nil]
      refine List.chain'_cons.mpr ⟨by omega, List.chain'_cons.mpr ⟨by omega, ?_⟩⟩
      exact List.chain'_singleton _)

/-- Counterexample for C6 as stated (arbitrary, possibly non-monotone
timestamps): messages at t = 100, 0, 50 (bucket 10 s) leave the finalized
buckets out of order (`[100, 0]`) and an open bucket at 50 that is earlier
than the finalized bucket at 100. -/
theorem claim6_counterexample :
    (applyMessages (StatisticsAggregator.withConfig 10 10 10)
        [Msg.mk "u" "U" "m" true 100, Msg.mk "u" "U" "m" true 0,
         Msg.mk "u" "U" "m" true 50]).rateData.map (fun b => b.1) = [100, 0] ∧
    ¬ List.Chain' (fun a b => a < b)
      ((applyMessages (StatisticsAggregator.withConfig 10 10 10)
        [Msg.mk "u" "U" "m" true 100, Msg.mk "u" "U" "m" true 0,
         Msg.mk "u" "U" "m" true 50]).rateData.map (fun b => b.1)) ∧
    (applyMessages (StatisticsAggregator.withConfig 10 10 10)
        [Msg.mk "u" "U" "m" true 100, Msg.mk "u" "U" "m" true 0,
         Msg.mk "u" "U" "m" true 50]).currentBucket = some (50, 1) ∧
    ¬ (∀ b ∈ (applyMessages (StatisticsAggregator.withConfig 10 10 10)
        [Msg.mk "u" "U" "m" true 100, Msg.mk "u" "U" "m" true 0,
         Msg.mk "u" "U" "m" true 50]).currentBucket,
      ∀ x ∈ (applyMessages (StatisticsAggregator.withConfig 10 10 10)
        [Msg.mk "u" "U" "m" true 100, Msg.mk "u" "U" "m" true 0,
         Msg.mk "u" "U" "m" true 50]).rateData, x.1 ≤ b.1) := by
  refine ⟨?_, ?_, ?_, ?_⟩
  · rfl
  · intro h
    have h' : List.Chain' (fun a b => a < b) [(100 : Int), (0 : Int)] := h
    have h2 := (List.chain'_cons.mp h').1
    omega
  · rfl
  · intro h
    have hmem : ((100 : Int), (1 : Nat)) ∈ (applyMessages
        (StatisticsAggregator.withConfig 10 10 10)
        [Msg.mk "u" "U" "m" true 100, Msg.mk "u" "U" "m" true 0,
         Msg.mk "u" "U" "m" true 50]).rateData := by
      have e : (applyMessages (StatisticsAggregator.withConfig 10 10 10)
          [Msg.mk "u" "U" "m" true 100, Msg.mk "u" "U" "m" true 0,
           Msg.mk "u" "U" "m" true 50]).rateData = [(100, 1), (0, 1)] := rfl
      rw [e]
      simp
    have hle := h (50, 1) rfl (100, 1) hmem
    have h2 : (100 : Int) ≤ 50 := hle
    omega

/-! ## Claim C7: tokenization and the word filter -/

/-- Folding the token loop equals incrementing exactly the lowercased
tokens that survive the byte-length/stop-word filter, in order. -/
theorem foldWordHh_eq_filter (toks : List (List Char)) :
    ∀ (h : WordHeavyHitters),
      toks.foldl wordHhStep h =
        (((toks.map lowerToken).filter
            (fun w2 => !(utf8Len w2 < 2 || stopWords.contains w2))).foldl
          (fun h w2 => h.increment w2) h) := by
  induction toks with
  | nil => intro h; rfl
  | cons w rest ih =>
    intro h
    simp only [List.foldl_cons, List.map_cons, List.filter_cons]
    by_cases hw : utf8Len (lowerToken w) < 2 ∨ stopWords.contains (lowerToken w)
    · have hb : (!(utf8Len (lowerToken w) < 2 || stopWords.contains (lowerToken w))) = false := by
        simp only [Bool.not_eq_false', Bool.or_eq_true, decide_eq_true_eq]
        rcases hw with hw | hw
        · exact Or.inl (by simpa using hw)
        · exact Or.inr hw
      rw [hb]
      simp only [Bool.false_eq_true, if_false]
      rw [← ih h]
      congr 1
      unfold wordHhStep
      rw [if_pos hw]
    · have hb : (!(utf8Len (lowerToken w) < 2 || stopWords.contains (lowerToken w))) = true := by
        simp only [Bool.not_eq_true', Bool.or_eq_false_iff, decide_eq_false_iff_not]
        constructor
        · intro hlt
          exact hw (Or.inl hlt)
        · by_cases hc : stopWords.contains (lowerToken w)
          · exact absurd (Or.inr hc) hw
          · simpa using hc
      rw [hb]
      simp only [if_true, List.foldl_cons]
      rw [← ih (h.increment (lowerToken w))]
      congr 1
      unfold wordHhStep
      rw [if_neg hw]

/-- **C7** (corrected).  For a `record_message` call with `is_gift = false`
and non-empty content, the content is split on whitespace/ASCII punctuation,
each non-empty fragment is lowercased, and the word heavy-hitter is
incremented for exactly those tokens whose **UTF-8 byte length** is at least
2 and that are not stop words (`str::len` counts bytes, not characters —
see the counterexample: a single CJK character passes the filter); gift
calls and empty content leave the word table untouched. -/
theorem claim7_tokenization (s : StatisticsAggregator) (u un content : String) (t : Int)
    (hne : content ≠ "") :
    (s.recordMessage u un content false t).wordHh =
      (((rawTokens content).map lowerToken).filter
          (fun w2 => !(utf8Len w2 < 2 || stopWords.contains w2))).foldl
        (fun h w2 => h.increment w2) s.wordHh ∧
    (∀ g, (s.recordMessage u un "" g t).wordHh = s.wordHh) ∧
    (s.recordMessage u un content true t).wordHh = s.wordHh := by
  refine ⟨?_, ?_, ?_⟩
  · obtain ⟨s5, heq, _, hwd, _, _, _, _⟩ := recordMessage_decomp s u un content false t
    obtain ⟨_, _, _, _, fwd, _, _⟩ := updateRateBucket_fields s5 t
    rw [heq, fwd, hwd, if_pos ⟨rfl, hne⟩]
    exact foldWordHh_eq_filter (rawTokens content) s.wordHh
  · intro g
    obtain ⟨s5, heq, _, hwd, _, _, _, _⟩ := recordMessage_decomp s u un "" g t
    obtain ⟨_, _, _, _, fwd, _, _⟩ := updateRateBucket_fields s5 t
    rw [heq, fwd, hwd, if_neg (by simp)]
  · obtain ⟨s5, heq, _, hwd, _, _, _, _⟩ := recordMessage_decomp s u un content true t
    obtain ⟨_, _, _, _, fwd, _, _⟩ := updateRateBucket_fields s5 t
    rw [heq, fwd, hwd, if_neg (by simp)]

/-- Witness for C7 at a concrete aggregator and content. -/
theorem claim7_tokenization_witness :
    ((StatisticsAggregator.withConfig 10 50 10).recordMessage "u" "U" "ab cd" false 0).wordHh =
      (((rawTokens "ab cd").map lowerToken).filter
          (fun w2 => !(utf8Len w2 < 2 || stopWords.contains w2))).foldl
        (fun h w2 => h.increment w2) (StatisticsAggregator.withConfig 10 50 10).wordHh ∧
    (∀ g, ((StatisticsAggregator.withConfig 10 50 10).recordMessage "u" "U" "" g 0).wordHh =
      (StatisticsAggregator.withConfig 10 50 10).wordHh) ∧
    ((StatisticsAggregator.withConfig 10 50 10).recordMessage "u" "U" "ab cd" true 0).wordHh =
      (StatisticsAggregator.withConfig 10 50 10).wordHh :=
  claim7_tokenization (StatisticsAggregator.withConfig 10 50 10) "u" "U" "ab cd" 0
    (by decide)

/-- Counterexample for C7 as stated: the single Chinese character `猫` is a
1-character token, yet `record_message` increments the word heavy-hitter for
it — the length filter uses the UTF-8 byte length (3 for `猫`), not the
character count. -/
theorem claim7_counterexample :
    ("猫" : String).data.length = 1 ∧
    (((StatisticsAggregator.withConfig 10 50
        10).recordMessage "u" "U" "猫" false 0).wordHh).counters.lookup "猫" =
      some ⟨1, 0⟩ :=
  ⟨by decide, by decide⟩

/-! ## Claim C5: `top_n` ordering -/

theorem cmpNat_swap (a b : Nat) : (cmpNat a b).swap = cmpNat b a := by
  unfold cmpNat
  by_cases h1 : a < b
  · have h2 : ¬ b < a := by omega
    simp [h1, h2, Ordering.swap]
  · by_cases h2 : b < a <;> simp [h1, h2, Ordering.swap]

theorem then_ne_gt (x y : Ordering) :
    x.then y ≠ .gt ↔ (x = .lt ∨ (x = .eq ∧ y ≠ .gt)) := by
  cases x <;> simp [Ordering.then]

theorem then_eq_lt (x y : Ordering) :
    x.then y = .lt ↔ (x = .lt ∨ (x = .eq ∧ y = .lt)) := by
  cases x <;> simp [Ordering.then]

theorem then_eq_eq (x y : Ordering) :
    x.then y = .eq ↔ (x = .eq ∧ y = .eq) := by
  cases x <;> simp [Ordering.then]

theorem cmpNat_eq_lt_iff (a b : Nat) : cmpNat a b = .lt ↔ a < b := by
  unfold cmpNat
  by_cases h1 : a < b
  · simp [h1]
  · by_cases h2 : b < a <;> simp [h1, h2]

theorem cmpNat_eq_eq_iff (a b : Nat) : cmpNat a b = .eq ↔ a = b := by
  unfold cmpNat
  by_cases h1 : a < b
  · simp [h1]
    omega
  · by_cases h2 : b < a <;> simp [h1, h2] <;> omega

theorem cmpNat_ne_gt_iff (a b : Nat) : cmpNat a b ≠ .gt ↔ a ≤ b := by
  unfold cmpNat
  by_cases h1 : a < b
  · simp [h1]
    omega
  · by_cases h2 : b < a
    · simp [h1, h2]
    · simp [h1, h2]
      omega

theorem cmpStr_eq_lt_iff (a b : String) : cmpStr a b = .lt ↔ a < b := by
  unfold cmpStr
  by_cases h1 : a < b
  · simp [h1]
  · by_cases h2 : b < a <;> simp [h1, h2]

theorem cmpStr_eq_eq_iff (a b : String) : cmpStr a b = .eq ↔ a = b := by
  unfold cmpStr
  by_cases h1 : a < b
  · simp [h1]
    exact ne_of_lt h1
  · by_cases h2 : b < a <;> simp [h1, h2]
    · exact (ne_of_lt h2).symm
    · exact le_antisymm (le_of_not_lt h2) (le_of_not_lt h1)

/-- The lexicographic reading of the shared `top_n` comparator (primary key
descending, then string key ascending, then error ascending). -/
theorem lexCmp_ne_gt_iff {α : Type} (f : α → Nat) (g : α → String) (h : α → Nat) (a b : α) :
    (((cmpNat (f b) (f a)).then (cmpStr (g a) (g b))).then (cmpNat (h a) (h b)) ≠ .gt) ↔
      (f b < f a ∨ (f a = f b ∧ (g a < g b ∨ (g a = g b ∧ h a ≤ h b)))) := by
  rw [then_ne_gt, then_eq_lt, then_eq_eq]
  rw [cmpNat_eq_lt_iff, cmpNat_eq_eq_iff, cmpStr_eq_lt_iff, cmpStr_eq_eq_iff,
    cmpNat_ne_gt_iff]
  constructor
  · rintro ((h1 | ⟨h1, h2⟩) | ⟨⟨h1, h2⟩, h3⟩)
    · exact Or.inl h1
    · exact Or.inr ⟨h1.symm, Or.inl h2⟩
    · exact Or.inr ⟨h1.symm, Or.inr ⟨h2, h3⟩⟩
  · rintro (h1 | ⟨h1, h2 | ⟨h2, h3⟩⟩)
    · exact Or.inl (Or.inl h1)
    · exact Or.inl (Or.inr ⟨h1.symm, h2⟩)
    · exact Or.inr ⟨⟨h1.symm, h2⟩, h3⟩

theorem lexCmp_trans {α : Type} (f : α → Nat) (g : α → String) (h : α → Nat) (a b c : α)
    (hab : ((cmpNat (f b) (f a)).then (cmpStr (g a) (g b))).then (cmpNat (h a) (h b)) ≠ .gt)
    (hbc : ((cmpNat (f c) (f b)).then (cmpStr (g b) (g c))).then (cmpNat (h b) (h c)) ≠ .gt) :
    ((cmpNat (f c) (f a)).then (cmpStr (g a) (g c))).then (cmpNat (h a) (h c)) ≠ .gt := by
  rw [lexCmp_ne_gt_iff] at hab hbc ⊢
  rcases hab with h1 | ⟨h1, hab2⟩
  · rcases hbc with h2 | ⟨h2, _⟩
    · exact Or.inl (lt_trans h2 h1)
    · exact Or.inl (h2 ▸ h1)
  · rcases hbc with h2 | ⟨h2, hbc2⟩
    · exact Or.inl (by omega)
    · refine Or.inr ⟨by omega, ?_⟩
      rcases hab2 with h3 | ⟨h3, h4⟩
      · rcases hbc2 with h5 | ⟨h5, _⟩
        · exact Or.inl (lt_trans h3 h5)
        · exact Or.inl (h5 ▸ h3)
      · rcases hbc2 with h5 | ⟨h5, h6⟩
        · exact Or.inl (h3 ▸ h5)
        · exact Or.inr ⟨h3.trans h5, le_trans h4 h6⟩

theorem lexCmp_total {α : Type} (f : α → Nat) (g : α → String) (h : α → Nat) (a b : α) :
    (((cmpNat (f b) (f a)).then (cmpStr (g a) (g b))).then (cmpNat (h a) (h b)) ≠ .gt) ∨
    (((cmpNat (f a) (f b)).then (cmpStr (g b) (g a))).then (cmpNat (h b) (h a)) ≠ .gt) := by
  rw [lexCmp_ne_gt_iff, lexCmp_ne_gt_iff]
  rcases lt_trichotomy (f a) (f b) with h1 | h1 | h1
  · exact Or.inr (Or.inl h1)
  · rcases lt_trichotomy (g a) (g b) with h2 | h2 | h2
    · exact Or.inl (Or.inr ⟨h1, Or.inl h2⟩)
    · rcases Nat.le_total (h a) (h b) with h3 | h3
      · exact Or.inl (Or.inr ⟨h1, Or.inr ⟨h2, h3⟩⟩)
      · exact Or.inr (Or.inr ⟨h1.symm, Or.inr ⟨h2.symm, h3⟩⟩)
    · exact Or.inr (Or.inr ⟨h1.symm, Or.inl h2⟩)
  · exact Or.inl (Or.inl h1)

/-- `talkerCmp` in the lexicographic three-projection shape. -/
theorem talkerCmp_eq_lex (a b : String × TalkerCounter) :
    talkerCmp a b =
      ((cmpNat (TalkerCounter.count b.2) (TalkerCounter.count a.2)).then
        (cmpStr a.1 b.1)).then (cmpNat (TalkerCounter.error a.2) (TalkerCounter.error b.2)) :=
  rfl

/-- `compare_entries` in the lexicographic three-projection shape (its
leading `.reverse()` turns `cmp(score a, score b)` into
`cmp(score b, score a)`). -/
theorem compareEntries_eq_lex (s : WordHeavyHitters) (a b : String × WordCounter) :
    s.compareEntries a b =
      ((cmpNat (s.score b.1 b.2) (s.score a.1 a.2)).then (cmpStr a.1 b.1)).then
        (cmpNat (WordCounter.error a.2) (WordCounter.error b.2)) := by
  unfold WordHeavyHitters.compareEntries
  rw [cmpNat_swap]

/-- **C5** (confirmed).  For every heavy-hitters table state and every `n`,
`top_n(n)` returns at most `min(n, table size)` entries; the output is a
projection of the first `n` entries of a permutation of the table that is
pairwise ordered by effective score descending (for words
`max(count, sketch.estimate(key))` when a sketch is attached, else the raw
count), with ties broken by key ascending and then by error ascending; and
`top_n(0)` or an empty table yields `[]`. -/
theorem claim5_topn (t : TalkerHeavyHitters) (w : WordHeavyHitters) (n : Nat) :
    ((t.topN n).length ≤ min n t.counters.length ∧
     (∃ l' : List (String × TalkerCounter), List.Perm l' t.counters ∧
        List.Pairwise (fun a b =>
          b.2.count < a.2.count ∨ (a.2.count = b.2.count ∧
            (a.1 < b.1 ∨ (a.1 = b.1 ∧ a.2.error ≤ b.2.error)))) l' ∧
        t.topN n = (l'.take n).map (fun e => ⟨e.1, e.2.username, e.2.count⟩)) ∧
     ((n = 0 ∨ t.counters = []) → t.topN n = [])) ∧
    ((w.topN n).length ≤ min n w.counters.length ∧
     (∃ l' : List (String × WordCounter), List.Perm l' w.counters ∧
        List.Pairwise (fun a b =>
          w.score b.1 b.2 < w.score a.1 a.2 ∨ (w.score a.1 a.2 = w.score b.1 b.2 ∧
            (a.1 < b.1 ∨ (a.1 = b.1 ∧ a.2.error ≤ b.2.error)))) l' ∧
        w.topN n = (l'.take n).map (fun e => ⟨e.1, w.score e.1 e.2⟩)) ∧
     ((n = 0 ∨ w.counters = []) → w.topN n = [])) := by
  constructor
  · set le := fun (a b : String × TalkerCounter) => decide (talkerCmp a b ≠ .gt) with hle
    have htrans : ∀ a b c, le a b → le b c → le a c := by
      intro a b c hab hbc
      rw [hle] at hab hbc ⊢
      simp only [decide_eq_true_eq] at hab hbc ⊢
      rw [talkerCmp_eq_lex] at hab hbc ⊢
      exact lexCmp_trans (fun e => e.2.count) (fun e => e.1) (fun e => e.2.error) a b c hab hbc
    have htotal : ∀ a b, le a b || le b a := by
      intro a b
      rw [hle]
      simp only [decide_eq_true_eq, Bool.or_eq_true]
      rw [talkerCmp_eq_lex, talkerCmp_eq_lex]
      exact lexCmp_total (fun e => e.2.count) (fun e => e.1) (fun e => e.2.error) a b
    have hsorted := List.sorted_mergeSort htrans htotal t.counters
    refine ⟨?_, ⟨t.counters.mergeSort le, List.mergeSort_perm t.counters le, ?_, ?_⟩, ?_⟩
    · unfold TalkerHeavyHitters.topN
      by_cases hz : n = 0 ∨ t.counters = []
      · rw [if_pos hz]
        simp
      · rw [if_neg hz]
        rw [List.length_map, List.length_take, List.length_mergeSort]
    · refine hsorted.imp ?_
      intro a b hab
      rw [hle] at hab
      simp only [decide_eq_true_eq] at hab
      rw [talkerCmp_eq_lex,
        lexCmp_ne_gt_iff (fun e => e.2.count) (fun e => e.1) (fun e => e.2.error) a b] at hab
      exact hab
    · unfold TalkerHeavyHitters.topN
      by_cases hz : n = 0 ∨ t.counters = []
      · rw [if_pos hz]
        rcases hz with hz | hz
        · simp [hz]
        · simp [hz]
      · rw [if_neg hz]
    · intro hz'
      unfold TalkerHeavyHitters.topN
      rw [if_pos hz']
  · set le := fun (a b : String × WordCounter) => decide (w.compareEntries a b ≠ .gt)
      with hle
    have htrans : ∀ a b c, le a b → le b c → le a c := by
      intro a b c hab hbc
      rw [hle] at hab hbc ⊢
      simp only [decide_eq_true_eq] at hab hbc ⊢
      rw [compareEntries_eq_lex] at hab hbc ⊢
      exact lexCmp_trans (fun e => w.score e.1 e.2) (fun e => e.1) (fun e => e.2.error)
        a b c hab hbc
    have htotal : ∀ a b, le a b || le b a := by
      intro a b
      rw [hle]
      simp only [decide_eq_true_eq, Bool.or_eq_true]
      rw [compareEntries_eq_lex, compareEntries_eq_lex]
      exact lexCmp_total (fun e => w.score e.1 e.2) (fun e => e.1) (fun e => e.2.error) a b
    have hsorted := List.sorted_mergeSort htrans htotal w.counters
    refine ⟨?_, ⟨w.counters.mergeSort le, List.mergeSort_perm w.counters le, ?_, ?_⟩, ?_⟩
    · unfold WordHeavyHitters.topN
      by_cases hz : n = 0 ∨ w.counters = []
      · rw [if_pos hz]
        simp
      · rw [if_neg hz]
        rw [List.length_map, List.length_take, List.length_mergeSort]
    · refine hsorted.imp ?_
      intro a b hab
      rw [hle] at hab
      simp only [decide_eq_true_eq] at hab
      rw [compareEntries_eq_lex,
        lexCmp_ne_gt_iff (fun e => w.score e.1 e.2) (fun e => e.1) (fun e => e.2.error)
          a b] at hab
      exact hab
    · unfold WordHeavyHitters.topN
      by_cases hz : n = 0 ∨ w.counters = []
      · rw [if_pos hz]
        rcases hz with hz | hz
        · simp [hz]
        · simp [hz]
      · rw [if_neg hz]
    · intro hz'
      unfold WordHeavyHitters.topN
      rw [if_pos hz']

/-- Witness for C5 at a concrete talker table, word table and `n`. -/
theorem claim5_topn_witness :
    (((TalkerHeavyHitters.new 1).topN 0).length ≤
        min 0 (TalkerHeavyHitters.new 1).counters.length ∧
     (∃ l' : List (String × TalkerCounter), List.Perm l' (TalkerHeavyHitters.new 1).counters ∧
        List.Pairwise (fun a b =>
          b.2.count < a.2.count ∨ (a.2.count = b.2.count ∧
            (a.1 < b.1 ∨ (a.1 = b.1 ∧ a.2.error ≤ b.2.error)))) l' ∧
        (TalkerHeavyHitters.new 1).topN 0 =
          (l'.take 0).map (fun e => ⟨e.1, e.2.username, e.2.count⟩)) ∧
     ((0 = 0 ∨ (TalkerHeavyHitters.new 1).counters = []) →
        (TalkerHeavyHitters.new 1).topN 0 = [])) ∧
    (((WordHeavyHitters.new 1 none).topN 0).length ≤
        min 0 (WordHeavyHitters.new 1 none).counters.length ∧
     (∃ l' : List (String × WordCounter),
        List.Perm l' (WordHeavyHitters.new 1 none).counters ∧
        List.Pairwise (fun a b =>
          (WordHeavyHitters.new 1 none).score b.1 b.2 <
              (WordHeavyHitters.new 1 none).score a.1 a.2 ∨
            ((WordHeavyHitters.new 1 none).score a.1 a.2 =
              (WordHeavyHitters.new 1 none).score b.1 b.2 ∧
            (a.1 < b.1 ∨ (a.1 = b.1 ∧ a.2.error ≤ b.2.error)))) l' ∧
        (WordHeavyHitters.new 1 none).topN 0 =
          (l'.take 0).map (fun e => ⟨e.1, (WordHeavyHitters.new 1 none).score e.1 e.2⟩)) ∧
     ((0 = 0 ∨ (WordHeavyHitters.new 1 none).counters = []) →
        (WordHeavyHitters.new 1 none).topN 0 = [])) :=
  claim5_topn (TalkerHeavyHitters.new 1) (WordHeavyHitters.new 1 none) 0

/-! ## Claim C4: the sketch never underestimates (up to saturation) -/

theorem totalFor_cons (v : String) (c : String × Nat) (rest : List (String × Nat)) :
    totalFor v (c :: rest) = (if c.1 == v then c.2 else 0) + totalFor v rest := by
  unfold totalFor
  rw [List.filter_cons]
  by_cases hc : c.1 == v <;> simp [hc]

/-- `cmsMinRows` is a fold of `min` over the value's cells. -/
theorem cmsMinRows_eq_fold (v : String) (w : Nat) :
    ∀ (rows : List (List Nat)) (i acc : Nat),
      cmsMinRows v w i rows acc = (vCells v w i rows).foldl min acc := by
  intro rows
  induction rows with
  | nil => intro i acc; rfl
  | cons row rest ih =>
    intro i acc
    simp only [cmsMinRows, vCells, List.foldl_cons]
    exact ih (i + 1) _

theorem foldl_min_ge (B : Nat) :
    ∀ (l : List Nat) (acc : Nat), B ≤ acc → (∀ x ∈ l, B ≤ x) → B ≤ l.foldl min acc := by
  intro l
  induction l with
  | nil => intro acc ha _; exact ha
  | cons x rest ih =>
    intro acc ha hl
    simp only [List.foldl_cons]
    exact ih (min acc x) (le_min ha (hl x (List.mem_cons_self _ _)))
      (fun y hy => hl y (List.mem_cons_of_mem _ hy))

/-- `cmsIncRows` preserves row lengths. -/
theorem cmsIncRows_lengths (v : String) (inc w : Nat) :
    ∀ (rows : List (List Nat)) (i : Nat), (∀ row ∈ rows, row.length = w) →
      ∀ row ∈ cmsIncRows v inc w i rows, row.length = w := by
  intro rows
  induction rows with
  | nil => intro i h row hrow; simp [cmsIncRows] at hrow
  | cons r rest ih =>
    intro i h row hrow
    simp only [cmsIncRows] at hrow
    rcases List.mem_cons.mp hrow with hrow | hrow
    · subst hrow
      rw [List.length_set]
      exact h r (List.mem_cons_self _ _)
    · exact ih (i + 1) (fun row h' => h row (List.mem_cons_of_mem _ h')) row hrow

/-- Incrementing `v` maps each of `v`'s cells through `satAdd · inc`. -/
theorem vCells_incRows_same (v : String) (inc w : Nat) (hw : 0 < w) :
    ∀ (rows : List (List Nat)) (i : Nat), (∀ row ∈ rows, row.length = w) →
      vCells v w i (cmsIncRows v inc w i rows) =
        (vCells v w i rows).map (fun x => satAdd x inc) := by
  intro rows
  induction rows with
  | nil => intro i _; rfl
  | cons r rest ih =>
    intro i h
    have hr : r.length = w := h r (List.mem_cons_self _ _)
    have hidx : hashWithSeed v i % w < r.length := by
      rw [hr]; exact Nat.mod_lt _ hw
    simp only [cmsIncRows, vCells, List.map_cons]
    rw [ih (i + 1) (fun row h' => h row (List.mem_cons_of_mem _ h'))]
    congr 1
    rw [List.getD_eq_getElem _ _ (by simpa using hidx), List.getElem_set_self]

/-- Incrementing any value never decreases `v`'s cells (given all cells are
at most `u64::MAX`). -/
theorem vCells_incRows_mono (v v' : String) (inc w : Nat) :
    ∀ (rows : List (List Nat)) (i : Nat), (∀ row ∈ rows, ∀ c ∈ row, c ≤ u64Max) →
      ∀ x ∈ vCells v w i (cmsIncRows v' inc w i rows), ∃ y ∈ vCells v w i rows, y ≤ x := by
  intro rows
  induction rows with
  | nil => intro i _ x hx; simp [cmsIncRows, vCells] at hx
  | cons r rest ih =>
    intro i h x hx
    simp only [cmsIncRows, vCells] at hx
    rcases List.mem_cons.mp hx with hx | hx
    · refine ⟨r.getD (hashWithSeed v i % w) 0, by simp [vCells], ?_⟩
      subst hx
      by_cases hcol : hashWithSeed v' i % w = hashWithSeed v i % w
      · rw [hcol]
        by_cases hlt : hashWithSeed v i % w < r.length
        · rw [List.getD_eq_getElem _ _ hlt,
            List.getD_eq_getElem _ _ (by simpa using hlt), List.getElem_set_self]
          refine le_satAdd_left inc ?_
          exact h r (List.mem_cons_self _ _) _ (List.getElem_mem _)
        · rw [List.getD_eq_default _ _ (Nat.le_of_not_lt hlt),
            List.getD_eq_default _ _ (by simpa using Nat.le_of_not_lt hlt)]
      · by_cases hlt : hashWithSeed v i % w < r.length
        · rw [List.getD_eq_getElem _ _ hlt,
            List.getD_eq_getElem _ _ (by simpa using hlt),
            List.getElem_set_ne (by omega)]
        · rw [List.getD_eq_default _ _ (Nat.le_of_not_lt hlt),
            List.getD_eq_default _ _ (by simpa using Nat.le_of_not_lt hlt)]
    · obtain ⟨y, hy, hyx⟩ := ih (i + 1) (fun row h' => h row (List.mem_cons_of_mem _ h')) x hx
      exact ⟨y, by simp [vCells]; exact Or.inr hy, hyx⟩

theorem satAdd_lower {x T : Nat} (inc : Nat) (hx : min T u64Max ≤ x) :
    min (T + inc) u64Max ≤ satAdd x inc := by
  unfold satAdd
  rcases Nat.le_total T u64Max with hT | hT <;> omega

theorem sketchInv_new (w d : Nat) (v : String) : SketchInv (CountMinSketch.new w d) v 0 := by
  refine ⟨?_, ?_, ?_, ?_⟩
  · intro row hrow
    rw [List.eq_of_mem_replicate hrow]
    exact List.length_replicate _ _
  · simp [CountMinSketch.new]
  · intro row hrow c hc
    rw [List.eq_of_mem_replicate hrow] at hc
    rw [List.eq_of_mem_replicate hc]
    exact Nat.zero_le _
  · intro x _
    simp

theorem sketchInv_step (s : CountMinSketch) (v v' : String) (inc T : Nat)
    (h : SketchInv s v T) :
    SketchInv (s.increment v' inc) v (T + if v' == v then inc else 0) := by
  obtain ⟨hlen, hw, hcell, hlow⟩ := h
  refine ⟨?_, hw, ?_, ?_⟩
  · exact cmsIncRows_lengths v' inc s.width s.rows 0 hlen
  · exact cmsIncRows_cells_le v' inc s.width s.rows 0 hcell
  · by_cases hv : v' = v
    · subst hv
      simp only [beq_self_eq_true, if_true]
      intro x hx
      simp only [CountMinSketch.increment] at hx
      rw [vCells_incRows_same v' inc s.width hw s.rows 0 hlen] at hx
      obtain ⟨y, hy, hxy⟩ := List.mem_map.mp hx
      rw [← hxy]
      exact satAdd_lower inc (hlow y hy)
    · have hbeq : (v' == v) = false := by simpa using hv
      simp only [hbeq, if_false, Nat.add_zero]
      intro x hx
      simp only [CountMinSketch.increment] at hx
      obtain ⟨y, hy, hyx⟩ := vCells_incRows_mono v v' inc s.width s.rows 0 hcell x hx
      exact le_trans (hlow y hy) hyx

theorem estimate_ge_of_inv (s : CountMinSketch) (v : String) (T : Nat)
    (h : SketchInv s v T) : min T u64Max ≤ s.estimate v := by
  obtain ⟨_, _, _, hlow⟩ := h
  unfold CountMinSketch.estimate
  rw [cmsMinRows_eq_fold]
  exact foldl_min_ge _ _ _ (min_le_right _ _) hlow

theorem applySketchCalls_lower (calls : List (String × Nat)) (v : String) :
    ∀ (s : CountMinSketch) (T : Nat), SketchInv s v T →
      min (T + totalFor v calls) u64Max ≤ (applySketchCalls s calls).estimate v := by
  induction calls with
  | nil =>
    intro s T h
    simpa [applySketchCalls, totalFor] using estimate_ge_of_inv s v T h
  | cons c rest ih =>
    intro s T h
    have hstep := sketchInv_step s v c.1 c.2 T h
    have := ih (s.increment c.1 c.2) (T + if c.1 == v then c.2 else 0) hstep
    have harr : applySketchCalls s (c :: rest) = applySketchCalls (s.increment c.1 c.2) rest := by
      simp [applySketchCalls]
    rw [harr, totalFor_cons]
    by_cases hc : c.1 == v
    · simpa [hc, Nat.add_assoc, Nat.add_comm, Nat.add_left_comm] using this
    · simpa [hc] using this

/-- **C4** (corrected).  For every `CountMinSketch` and every sequence of
`increment(value, amount)` calls, `estimate(value)` is at least
`min(total amount incremented for value, u64::MAX)`: the estimator never
underestimates as long as the true total fits in a `u64` (the cells
saturate at `u64::MAX`, so beyond that the estimate pins at `u64::MAX` —
see the counterexample to the unqualified claim). -/
theorem claim4_estimate_lower_bound (w d : Nat) (calls : List (String × Nat)) (v : String) :
    min (totalFor v calls) u64Max ≤
      (applySketchCalls (CountMinSketch.new w d) calls).estimate v := by
  simpa using applySketchCalls_lower calls v (CountMinSketch.new w d) 0 (sketchInv_new w d v)

/-- Counterexample for C4 as stated: increment a single value by
`u64::MAX` and then by 1 (total `u64::MAX + 1`); the saturated estimate is
`u64::MAX`, strictly below the total amount incremented. -/
theorem claim4_counterexample :
    (applySketchCalls (CountMinSketch.new 64 2) [("a", u64Max), ("a", 1)]).estimate "a" =
      u64Max ∧
    totalFor "a" [("a", u64Max), ("a", 1)] = u64Max + 1 ∧
    u64Max < u64Max + 1 := by
  refine ⟨by decide, by decide, Nat.lt_succ_self _⟩

/-- **C1** (confirmed).  For every sequence of `increment` calls on a
`TalkerHeavyHitters` or a `WordHeavyHitters` constructed with capacity `C`
(any sketch configuration for the word table), the number of entries in the
`counters` table never exceeds `max C 1`, regardless of how many distinct
keys are fed in. -/
theorem claim1_capacity_bound (C : Nat) (sk : Option CountMinSketch)
    (talkerCalls : List (String × String)) (wordCalls : List String) :
    (applyTalkerCalls (TalkerHeavyHitters.new C) talkerCalls).counters.length ≤ max C 1 ∧
    (applyWordCalls (WordHeavyHitters.new C sk) wordCalls).counters.length ≤ max C 1 := by
  constructor
  · have h := applyTalkerCalls_length talkerCalls (TalkerHeavyHitters.new C)
      (by simp [TalkerHeavyHitters.new])
    rwa [applyTalkerCalls_capacity] at h
  · have h := applyWordCalls_length wordCalls (WordHeavyHitters.new C sk)
      (by simp [WordHeavyHitters.new])
    rwa [applyWordCalls_capacity] at h

/-! ## Claims C9 and C10: the coordinator -/

set_option maxRecDepth 100000

theorem raceReach_closed :
    ∀ c ∈ raceReach,
      stepS c ∈ raceReach ∧ stepT c ∈ raceReach ∧ stepE c ∈ raceReach := by decide

theorem raceInit_mem : raceInit ∈ raceReach := by decide

theorem runRace_mem (sched : List RaceMove) : runRace sched ∈ raceReach := by
  unfold runRace
  have h : ∀ (sched : List RaceMove) (c : RaceConfig), c ∈ raceReach →
      List.foldl (fun c m => raceStep m c) c sched ∈ raceReach := by
    intro sched
    induction sched with
    | nil => intro c hc; exact hc
    | cons m rest ih =>
      intro c hc
      simp only [List.foldl_cons]
      apply ih
      cases m with
      | stop => exact (raceReach_closed c hc).1
      | task => exact (raceReach_closed c hc).2.1
      | expire => exact (raceReach_closed c hc).2.2
  exact h sched raceInit raceInit_mem

/-- **C9** (corrected).  For every interleaving of an
external-cancellation-driven task cleanup and a concurrent explicit
`stop_collection` for the same session in which both paths run to
completion, the persistence-plus-`CollectionStopped` side-effect sequence
is performed exactly once when the `done` signal arrives within the stop
timeout, and — against the original claim — zero times when
`stop_collection` wins the atomic registry removal but its 10-second await
of the `done` one-shot times out: the stop path then returns default
statistics with no side effects, and the task, finding its registry entry
already removed, skips them too.  It is never performed twice, and the
registry and reverse index are emptied in every case. -/
theorem claim9_stop_cancel_race (sched : List RaceMove)
    (h : RaceDone (runRace sched)) : RacePostTimed (runRace sched) := by
  have hmem := runRace_mem sched
  have hpost : ∀ c ∈ raceReach, RaceDone c → RacePostTimed c := by decide
  exact hpost _ hmem h

/-- Witness for C9: the schedule where the task finishes its cleanup first
and `stop_collection` then observes the empty registry. -/
theorem claim9_stop_cancel_race_witness :
    RaceDone (runRace (List.replicate 6 RaceMove.task ++ [RaceMove.stop])) ∧
    RacePostTimed (runRace (List.replicate 6 RaceMove.task ++ [RaceMove.stop])) :=
  ⟨by decide,
   claim9_stop_cancel_race (List.replicate 6 RaceMove.task ++ [RaceMove.stop]) (by decide)⟩

/-- Counterexample to the original C9: when `stop_collection` wins the
registry removal, reaches the await of the `done` one-shot, and the
10-second stop timeout fires before the task's terminal signal, the run
completes (the task later finds the registry empty and only sends the
ignored `done`) with zero persistence and zero `CollectionStopped`
broadcasts — not the claimed exactly one. -/
theorem claim9_counterexample :
    RaceDone (runRace (List.replicate 5 RaceMove.stop ++
      [RaceMove.expire, RaceMove.task, RaceMove.task])) ∧
    ¬ RacePost (runRace (List.replicate 5 RaceMove.stop ++
      [RaceMove.expire, RaceMove.task, RaceMove.task])) := by decide

/-- **C10** (confirmed).  If `start_collection` is called with a session id
already present in the registry, it returns the "already active" error
immediately and mutates no service state: the registry, the reverse
streamer-to-session index, and the event stream are unchanged. -/
theorem claim10_duplicate_start (st : ServiceState) (sessionId streamerId : String)
    (provider : Option ProviderModel) (extras : Option (List (String × String)))
    (h : (st.collections.lookup sessionId).isSome) :
    (startCollectionSync st sessionId streamerId provider extras).1 =
      StartOutcome.errAlreadyActive ∧
    (startCollectionSync st sessionId streamerId provider extras).2.collections =
      st.collections ∧
    (startCollectionSync st sessionId streamerId provider extras).2.sessionsByStreamer =
      st.sessionsByStreamer ∧
    (startCollectionSync st sessionId streamerId provider extras).2.eventCount =
      st.eventCount := by
  unfold startCollectionSync
  rw [if_pos h]
  exact ⟨rfl, rfl, rfl, rfl⟩

/-- Witness for C10: a duplicate start against a registry holding the
session. -/
theorem claim10_duplicate_start_witness :
    (startCollectionSync ⟨[("s1", "m1")], [("m1", "s1")], 0⟩ "s1" "m2"
        (some ⟨"huya", some "42"⟩) none).1 = StartOutcome.errAlreadyActive ∧
    (startCollectionSync ⟨[("s1", "m1")], [("m1", "s1")], 0⟩ "s1" "m2"
        (some ⟨"huya", some "42"⟩) none).2.collections = [("s1", "m1")] ∧
    (startCollectionSync ⟨[("s1", "m1")], [("m1", "s1")], 0⟩ "s1" "m2"
        (some ⟨"huya", some "42"⟩) none).2.sessionsByStreamer = [("m1", "s1")] ∧
    (startCollectionSync ⟨[("s1", "m1")], [("m1", "s1")], 0⟩ "s1" "m2"
        (some ⟨"huya", some "42"⟩) none).2.eventCount = 0 :=
  claim10_duplicate_start ⟨[("s1", "m1")], [("m1", "s1")], 0⟩ "s1" "m2"
    (some ⟨"huya", some "42"⟩) none (by decide)

end RustSrec
